import Mathlib

/-
  Verification development for the chunked GPU sort engine of
  src/opencl_gpusort.h (PG-Strom sort acceleration header).

  The development shallowly embeds the device kernels:
  the in-chunk bitonic pass run_gpusort_single (lines 154-198), the kernel
  wrapper gpusort_single (lines 398-415), the loader gpusort_setup_chunk_rs
  (lines 463-518), and the compare-swap step of the disabled merge routine
  run_gpusort_multi (lines 274-391).  Machine integers (cl_int, cl_uint)
  are modelled as Nat; all index and row-position values occurring in the
  kernels are nonnegative and far below 2 to the 31, and the one place where
  two-complement bit operations matter (the reversing partner computation)
  is modelled explicitly inside a 32-bit window via lnot32.
-/

namespace GpuSort

/-! ## Status codes

Modelled from the spec (section 3): the numeric values of StromError_Success,
StromError_DataStoreNoSpace and the fault codes are defined elsewhere in the
repository (not in src/); only their distinctness matters here. -/

/-- Modelled from the spec: per-invocation status code (section 3 of the spec);
Success, NoSpace (capacity exhausted while loading) or Fault (comparator or
data access failure).  The concrete cl_int values live outside src/. -/
inductive StromError where
  | Success
  | DataStoreNoSpace
  | Fault
deriving DecidableEq, Repr

/-! ## Lane geometry of the bitonic pass (run_gpusort_single, lines 172-184)

The C code computes, for the work item threadID:
  idx0 = (threadID / halfUnitSize) * unitsz + threadID % halfUnitSize;
  idx1 = reversing ? ((idx0 & ~unitMask) | (~idx0 & unitMask))
                   : (idx0 + halfUnitSize);
with halfUnitSize = unitsz / 2 and unitMask = unitsz - 1.  cl_int is a 32-bit
two-complement integer; for 0 <= x < 2^32 the bit pattern of ~x agrees with
4294967295 - x on the low 32 bits, and all masked results stay below 2^32. -/

/-- Bitwise NOT of a 32-bit value, as the C expression ~x evaluates on the
low 32 bits when 0 <= x < 2^32. -/
def lnot32 (x : ℕ) : ℕ := 4294967295 - x

/-- Line 179: idx0 = (threadID / halfUnitSize) * unitsz + threadID % halfUnitSize. -/
def laneIdx0 (unitsz t : ℕ) : ℕ :=
  t / (unitsz / 2) * unitsz + t % (unitsz / 2)

/-- Lines 180-182: the partner index of idx0.  When reversing,
idx1 = (idx0 & ~unitMask) | (~idx0 & unitMask) with unitMask = unitsz - 1;
otherwise idx1 = idx0 + halfUnitSize. -/
def laneIdx1 (reversing : Bool) (unitsz idx0 : ℕ) : ℕ :=
  if reversing then
    (idx0 &&& lnot32 (unitsz - 1)) ||| (lnot32 idx0 &&& (unitsz - 1))
  else
    idx0 + unitsz / 2

/-- Lines 172-197 of run_gpusort_single, the body executed by one work item
(thread t), for a comparator that does not fault (the comparator contract of
spec section 3 is a pure total-order function).  The rindex column is modelled
as a function res from array slots to stored entries; gpusort_comp applied to
the two referenced rows is abstracted into cmp on the stored entries.
If nrows <= idx1 the thread returns without touching the array; otherwise it
conditionally swaps the entries at idx0 and idx1 (lines 190-196). -/
def laneStep {α : Type} (cmp : α → α → ℤ) (reversing : Bool)
    (unitsz nrows : ℕ) (res : ℕ → α) (t : ℕ) : ℕ → α :=
  let idx0 := laneIdx0 unitsz t
  let idx1 := laneIdx1 reversing unitsz idx0
  if nrows ≤ idx1 then res
  else
    let pos0 := res idx0
    let pos1 := res idx1
    if 0 < cmp pos0 pos1 then
      Function.update (Function.update res idx0 pos1) idx1 pos0
    else res

/-- One full pass of run_gpusort_single: every launched work item
t = 0, 1, ..., nthreads-1 executes laneStep.  Distinct work items touch
disjoint slot pairs, so the unordered parallel execution of the pass is
modelled by a sequential fold over the thread ids. -/
def run_gpusort_single {α : Type} (cmp : α → α → ℤ) (reversing : Bool)
    (unitsz nrows nthreads : ℕ) (res : ℕ → α) : ℕ → α :=
  (List.range nthreads).foldl (laneStep cmp reversing unitsz nrows) res

/-! ## Chunk-level state (kern_gpusort, lines 77-128)

kern_gpusort packs a parameter buffer, a kern_column_store (whose last column
is the rindex array, line 124-128), a status word and a kern_toastbuf.
The sorting columns (including the identifier column) are opaque to the sort
kernels and are modelled as an abstract row-content function; the toast
buffer is an abstract value of an arbitrary type. -/

structure kern_column_store (ρ : Type) where
  nrows : ℕ
  rowdata : ℕ → ρ
  rindex : ℕ → ℕ

structure kern_gpusort (ρ τ : Type) where
  kchunk : kern_column_store ρ
  status : StromError
  ktoast : τ

/-- Comparator as declared at lines 134-140: gpusort_comp receives the
thread-private errcode (by pointer), a column store, a toast buffer and a row
index for each side, returns a cl_int ordering value and may update errcode.
The model returns the pair (return value, errcode after the call). -/
def GComp (ρ τ : Type) : Type :=
  StromError → kern_column_store ρ → τ → ℕ → kern_column_store ρ → τ → ℕ →
    ℤ × StromError

/-- Lines 162-197 executed by one work item at chunk level: reads
pos0 = results[idx0], pos1 = results[idx1], calls gpusort_comp with the
thread-private errcode, and conditionally swaps the two rindex entries.
The errcode value produced by the comparator is thread private and is
dropped when the thread finishes (nothing in run_gpusort_single or
gpusort_single reads or stores it).  Only the rindex column is written. -/
def laneStepK {ρ τ : Type} (gcomp : GComp ρ τ) (reversing : Bool)
    (unitsz : ℕ) (ktoast : τ) (kcs : kern_column_store ρ) (t : ℕ) :
    kern_column_store ρ :=
  let idx0 := laneIdx0 unitsz t
  let idx1 := laneIdx1 reversing unitsz idx0
  if kcs.nrows ≤ idx1 then kcs
  else
    let pos0 := kcs.rindex idx0
    let pos1 := kcs.rindex idx1
    let rv := (gcomp StromError.Success kcs ktoast pos0 kcs ktoast pos1).1
    if 0 < rv then
      { kcs with rindex :=
          Function.update (Function.update kcs.rindex idx0 pos1) idx1 pos0 }
    else kcs

/-- One pass of run_gpusort_single over the packed chunk: all launched work
items execute laneStepK on the shared column store; the toast buffer is read
by the comparator only and is returned unchanged because no kernel statement
stores into it. -/
def run_gpusort_single_k {ρ τ : Type} (gcomp : GComp ρ τ) (reversing : Bool)
    (unitsz nthreads : ℕ) (kcs : kern_column_store ρ) (ktoast : τ) :
    kern_column_store ρ × τ :=
  ((List.range nthreads).foldl (laneStepK gcomp reversing unitsz ktoast) kcs,
   ktoast)

/-- Kernel gpusort_single, lines 398-415: decodes the packed bitonic_unitsz
parameter (negative means reversing, the magnitude is the log2 of the unit
size), initializes the thread-private errcode to StromError_Success
(line 411) and runs run_gpusort_single.  The kernel body contains no store
to the status slot KERN_GPUSORT_STATUS and no use of errcode after the call,
so the status field of the returned kern_gpusort is the input status. -/
def gpusort_single {ρ τ : Type} (gcomp : GComp ρ τ) (bitonic_unitsz : ℤ)
    (nthreads : ℕ) (kg : kern_gpusort ρ τ) : kern_gpusort ρ τ :=
  let reversing : Bool := bitonic_unitsz < 0
  let unitsz : ℕ := 2 ^ bitonic_unitsz.natAbs
  let out := run_gpusort_single_k gcomp reversing unitsz nthreads
               kg.kchunk kg.ktoast
  { kchunk := out.1, status := kg.status, ktoast := out.2 }

/-! ## Loader gpusort_setup_chunk_rs (lines 463-518)

The slot-reservation step (lines 478-488) is executed by the first work item
of every work group:

  if (get_global_id(0) + get_local_size(0) < krs->nrows)
    kcs_nitems = get_local_size(0);
  else if (get_global_id(0) < krs_nrows)       // identifier slip for krs->nrows
    kcs_nitems = krs->nrows - kcs_offset;      // kcs_offset is read before any
                                               // assignment: uninitialized
  else
    kcs_nitems = 0;
  kcs_offset = atomic_and(&kcs->nrows, kcs_nitems);

atomic_and performs a bitwise AND on the shared counter and returns the old
value.  The uninitialized local kcs_offset read in the middle branch is
surfaced as an explicit junk parameter. -/

/-- OpenCL atomic_and on a cl_uint location: returns (old value, new stored
value), the new stored value being the bitwise AND of the old value and the
operand. -/
def atomic_and (old v : ℕ) : ℕ × ℕ := (old, old &&& v)

/-- Lines 480-485: the kcs_nitems computation of the group leader whose
get_global_id(0) is global_id.  The middle branch reads the uninitialized
kcs_offset, surfaced as the junk argument. -/
def setup_nitems (krs_nrows local_size global_id junk : ℕ) : ℕ :=
  if global_id + local_size < krs_nrows then local_size
  else if global_id < krs_nrows then krs_nrows - junk
  else 0

/-- The reservation performed by one work group (lines 478-487): the leader
computes kcs_nitems, then kcs_offset = atomic_and(&kcs->nrows, kcs_nitems).
Input: group index (get_global_id of the leader is group * local_size) and
the current shared kcs->nrows; output: ((kcs_offset, kcs_nitems), new
kcs->nrows). -/
def setup_reserve_group (krs_nrows local_size junk group nrows : ℕ) :
    (ℕ × ℕ) × ℕ :=
  let global_id := group * local_size
  let kcs_nitems := setup_nitems krs_nrows local_size global_id junk
  let a := atomic_and nrows kcs_nitems
  ((a.1, kcs_nitems), a.2)

/-- Sequentialization of the reservation step across the work groups listed
in groups (atomic operations on the shared counter serialize in some order;
the list fixes one).  Returns the per-group (kcs_offset, kcs_nitems) pairs
and the final value of kcs->nrows. -/
def setup_reserve_groups (krs_nrows local_size junk : ℕ) :
    List ℕ → ℕ → List (ℕ × ℕ) × ℕ
  | [], nrows => ([], nrows)
  | g :: gs, nrows =>
    let r := setup_reserve_group krs_nrows local_size junk g nrows
    let rest := setup_reserve_groups krs_nrows local_size junk gs r.2
    (r.1 :: rest.1, rest.2)

/-- Errcode dataflow of gpusort_setup_chunk_rs (lines 477, 491-501, 517):
errcode is initialized to StromError_DataStoreNoSpace at line 477 (the
commented-out alternative initializer is StromError_Success); pg_bytea_param
and kern_row_to_column (helpers outside src/) receive the errcode by pointer
and overwrite it only when they fail, modelled by optional fault values; no
other statement of the kernel assigns errcode.  kern_writeback_error_status
(outside src/; spec section 4.1: the loader emits one status code per
invocation) stores the resulting errcode into the status slot. -/
def gpusort_setup_chunk_rs_status
    (bytea_fault row_to_column_fault : Option StromError) : StromError :=
  let errcode := StromError.DataStoreNoSpace
  let errcode := bytea_fault.getD errcode
  let errcode := row_to_column_fault.getD errcode
  errcode

/-! ## The disabled merge routine (lines 199-396, inside an if-zero block)

run_gpusort_multi treats the two sorted inputs as one virtual sequence:
positions below N2 = N / 2 resolve into x, positions from N2 resolve into y
(lines 335-336, 356-361).  The value stored in a result slot is a virtual
position; a value of at least N marks an empty (sentinel) slot.
The routine reads N from the variable it never assigns: the sizing loop at
lines 313-314 has an empty body. -/

/-- Lines 313-314 of run_gpusort_multi:
  for(int i=1; i<x_nrows+y_nrows; i<<=1) { }
The loop body is empty, so the cl_int N that the following lines divide and
compare against keeps whatever value the uninitialized stack slot held.  The
uninitialized value is surfaced as the argument N. -/
def run_gpusort_multi_sizing (x_nrows y_nrows : ℕ) (N : ℤ) : ℤ := N

/-- Lines 335-336: resolving a virtual slot index into the x or y rindex
array (slots below N2 live in x_results, the rest in y_results). -/
def merge_results_get (x_results y_results : ℕ → ℕ) (N2 i : ℕ) : ℕ :=
  if i < N2 then x_results i else y_results (i - N2)

/-- Store counterpart of merge_results_get for the writes at lines 349-350
and 369-370. -/
def merge_results_set (x_results y_results : ℕ → ℕ) (N2 i v : ℕ) :
    (ℕ → ℕ) × (ℕ → ℕ) :=
  if i < N2 then (Function.update x_results i v, y_results)
  else (x_results, Function.update y_results (i - N2) v)

/-- Lines 356-361: a virtual position below N2 references row pos of chunk x,
otherwise row pos - N2 of chunk y. -/
def merge_row_at {ρ : Type} (xrow yrow : ℕ → ρ) (N2 pos : ℕ) : ρ :=
  if pos < N2 then xrow pos else yrow (pos - N2)

/-- Lines 332-372 of run_gpusort_multi: the compare-swap step of one work
item on the virtual slot pair (idx0, idx1).  The two slots are resolved
through the x and y rindex arrays (the declarations at lines 332-336; the
body reads them back through the same pointers).  If the value at idx1 is
empty (at least N) nothing happens; if only the value at idx0 is empty the
two entries are swapped; otherwise the two referenced rows are compared with
gpusort_comp and the entries are swapped exactly when the comparator returns
a positive value (line 366). -/
def run_gpusort_multi_step {ρ : Type} (cmpR : ρ → ρ → ℤ) (xrow yrow : ℕ → ρ)
    (N N2 idx0 idx1 : ℕ) (st : (ℕ → ℕ) × (ℕ → ℕ)) : (ℕ → ℕ) × (ℕ → ℕ) :=
  let pos0 := merge_results_get st.1 st.2 N2 idx0
  let pos1 := merge_results_get st.1 st.2 N2 idx1
  if N ≤ pos1 then st
  else if N ≤ pos0 then
    let st1 := merge_results_set st.1 st.2 N2 idx0 pos1
    merge_results_set st1.1 st1.2 N2 idx1 pos0
  else
    let rv := cmpR (merge_row_at xrow yrow N2 pos0)
                   (merge_row_at xrow yrow N2 pos1)
    if 0 < rv then
      let st1 := merge_results_set st.1 st.2 N2 idx0 pos1
      merge_results_set st1.1 st1.2 N2 idx1 pos0
    else st

/-! ## Proof layer: comparator contract and the abstract pass network -/

/-- Comparator contract of spec section 3: a pure function into the sign
values, antisymmetric and with a transitive nonpositive part, inducing a
total preorder (ties are permitted, spec section 4.3). -/
def IsComparator {α : Type} (cmp : α → α → ℤ) : Prop :=
  (∀ x y, cmp x y = - cmp y x) ∧
  (∀ x y z, cmp x y ≤ 0 → cmp y z ≤ 0 → cmp x z ≤ 0)

/-- Arithmetic form of the partner computation: within the unit of size u
holding i, the partner under reversing is the slot whose offset is the
complement u - 1 - (i % u); without reversing the two slots of a pair differ
by u / 2. -/
def buddy (reversing : Bool) (u i : ℕ) : ℕ :=
  if reversing then i / u * u + (u - 1 - i % u)
  else if i % u < u / 2 then i + u / 2 else i - u / 2

/-- Value kept at the lower slot of a compare-exchange pair. -/
def cexLo {α : Type} (cmp : α → α → ℤ) (x y : α) : α :=
  if 0 < cmp x y then y else x

/-- Value kept at the higher slot of a compare-exchange pair. -/
def cexHi {α : Type} (cmp : α → α → ℤ) (x y : α) : α :=
  if 0 < cmp x y then x else y

/-- Pointwise description of one unguarded pass: slot i receives the low
outcome of its pair when it is the lower slot, the high outcome otherwise. -/
def passFn {α : Type} (cmp : α → α → ℤ) (reversing : Bool) (u : ℕ)
    (g : ℕ → α) : ℕ → α :=
  fun i =>
    let j := buddy reversing u i
    if i < j then cexLo cmp (g i) (g j) else cexHi cmp (g j) (g i)

/-- Pointwise description of one pass with the live-row guard of line 183:
a pair acts only when both of its slots lie below nrows. -/
def gpassFn {α : Type} (cmp : α → α → ℤ) (reversing : Bool) (u nrows : ℕ)
    (g : ℕ → α) : ℕ → α :=
  fun i =>
    let j := buddy reversing u i
    if max i j < nrows then
      if i < j then cexLo cmp (g i) (g j) else cexHi cmp (g j) (g i)
    else g i

/-- Execution of a list of (reversing, unitsz) passes, pointwise form. -/
def execPasses {α : Type} (cmp : α → α → ℤ) (ps : List (Bool × ℕ))
    (g : ℕ → α) : ℕ → α :=
  ps.foldl (fun h pr => passFn cmp pr.1 pr.2 h) g

/-- The work item that owns slot i within a pass of unit size u: the inverse
of the pair (laneIdx0, laneIdx1). -/
def laneOf (reversing : Bool) (u i : ℕ) : ℕ :=
  i / u * (u / 2) +
    (if i % u < u / 2 then i % u
     else if reversing then u - 1 - i % u else i % u - u / 2)

/-- Canonical comparator on Bool with false below true. -/
def cmpBool (x y : Bool) : ℤ :=
  (if x then 1 else 0) - (if y then 1 else 0)

/-- Comparator lifted to Option with none as the sentinel, defined to compare
greater than every real value (spec section 3, Column Chunk invariant). -/
def cmpOpt {α : Type} (cmp : α → α → ℤ) : Option α → Option α → ℤ
  | none, none => 0
  | none, some _ => 1
  | some _, none => -1
  | some x, some y => cmp x y

/-- Padding of the live prefix of a state with sentinels: slots below n keep
their value, slots from n hold the sentinel none. -/
def liftN {α : Type} (n : ℕ) (f : ℕ → α) : ℕ → Option α :=
  fun i => if i < n then some (f i) else none

/-- Nondecreasing under cmp on slots a..b-1. -/
def SortedOn {α : Type} (cmp : α → α → ℤ) (g : ℕ → α) (a b : ℕ) : Prop :=
  ∀ i j, a ≤ i → i ≤ j → j < b → cmp (g i) (g j) ≤ 0

/-- Nondecreasing Bool block of length m starting at a. -/
def SortedB (g : ℕ → Bool) (a m : ℕ) : Prop :=
  ∀ i j, a ≤ i → i ≤ j → j < a + m → g i = true → g j = true

/-- Bool bitonicity on the block of length m starting at a: no four slots in
increasing order alternate twice.  This cyclic form covers both the rising
and the falling bitonic shapes. -/
def NoAlt4 (g : ℕ → Bool) (a m : ℕ) : Prop :=
  ∀ i j k l, a ≤ i → i < j → j < k → k < l → l < a + m →
    g i = g k → g j = g l → g i = g j

/-- Every true in the block of length m starting at a forces all of the next
block of length m to be true: the Bool form of the statement that every
element of the first block is at most every element of the second. -/
def CrossB (g : ℕ → Bool) (a m : ℕ) : Prop :=
  ∀ i, a ≤ i → i < a + m → g i = true →
    ∀ j, a + m ≤ j → j < a + 2 * m → g j = true

/-- Descending tail of a bitonic merge: the non-reversing passes of unit
sizes 2^t, 2^(t-1), ..., 2. -/
def mergeNet (t : ℕ) : List (Bool × ℕ) :=
  (List.range t).reverse.map (fun j => (false, 2 ^ (j + 1)))

/-- Modelled from the spec: the canonical bitonic pass sequence of spec
section 4.2 (each stage one reversing pass at the doubled unit size followed
by the bridge passes of decreasing unit sizes; log2(N)*(log2(N)+1)/2 passes
in total).  The host-side dispatch loop that issues the passes is not part
of src/. -/
def bitonicSchedule (p : ℕ) : List (Bool × ℕ) :=
  ((List.range p).map (fun s => (true, 2 ^ (s + 1)) :: mergeNet s)).flatten

/-- Modelled from the spec: the full in-chunk sort, the host invoking
gpusort_single once per pass of the canonical schedule on a chunk of
2^p padded slots (spec section 4.2), each launch covering one work item per
index-array slot (spec section 5).  Each pass is the embedded
run_gpusort_single. -/
def gpusort_single_all {α : Type} (cmp : α → α → ℤ) (nrows p : ℕ)
    (res : ℕ → α) : ℕ → α :=
  (bitonicSchedule p).foldl
    (fun g pr => run_gpusort_single cmp pr.1 pr.2 nrows (2 ^ p) g) res

/-- The live window of a state: the list of the first L stored entries. -/
def window {α : Type} (L : ℕ) (res : ℕ → α) : List α :=
  (List.range L).map res

/-- Sign comparator generated from a key function; used to build concrete
total-order comparators for witnesses. -/
def keyCmp (key : ℕ → ℤ) (a b : ℕ) : ℤ :=
  if key a < key b then -1 else if key b < key a then 1 else 0

/-! ## Basic facts about the chunk-level pass -/

theorem laneStepK_rowdata {ρ τ : Type} (gcomp : GComp ρ τ) (reversing : Bool)
    (unitsz : ℕ) (ktoast : τ) (kcs : kern_column_store ρ) (t : ℕ) :
    (laneStepK gcomp reversing unitsz ktoast kcs t).rowdata = kcs.rowdata ∧
    (laneStepK gcomp reversing unitsz ktoast kcs t).nrows = kcs.nrows := by
  unfold laneStepK
  dsimp only
  split
  · exact ⟨rfl, rfl⟩
  · split
    · exact ⟨rfl, rfl⟩
    · exact ⟨rfl, rfl⟩

theorem foldl_laneStepK_frame {ρ τ : Type} (gcomp : GComp ρ τ)
    (reversing : Bool) (unitsz : ℕ) (ktoast : τ) :
    ∀ (l : List ℕ) (kcs : kern_column_store ρ),
      (l.foldl (laneStepK gcomp reversing unitsz ktoast) kcs).rowdata =
        kcs.rowdata ∧
      (l.foldl (laneStepK gcomp reversing unitsz ktoast) kcs).nrows =
        kcs.nrows
  | [], kcs => ⟨rfl, rfl⟩
  | t :: l, kcs => by
    have h1 := laneStepK_rowdata gcomp reversing unitsz ktoast kcs t
    have h2 := foldl_laneStepK_frame gcomp reversing unitsz ktoast l
      (laneStepK gcomp reversing unitsz ktoast kcs t)
    simp only [List.foldl_cons]
    exact ⟨h2.1.trans h1.1, h2.2.trans h1.2⟩

/-- C9: every pass of the in-chunk bitonic sort mutates only the rindex
column of the chunk: the row data of the column store and the toast side
buffer are identical before and after the pass (and the row count is also
untouched). -/
theorem C9_pass_mutates_only_rindex {ρ τ : Type} (gcomp : GComp ρ τ)
    (reversing : Bool) (unitsz nthreads : ℕ) (kcs : kern_column_store ρ)
    (ktoast : τ) :
    (run_gpusort_single_k gcomp reversing unitsz nthreads kcs ktoast).1.rowdata
        = kcs.rowdata ∧
    (run_gpusort_single_k gcomp reversing unitsz nthreads kcs ktoast).2
        = ktoast ∧
    (run_gpusort_single_k gcomp reversing unitsz nthreads kcs ktoast).1.nrows
        = kcs.nrows := by
  refine ⟨?_, rfl, ?_⟩
  · exact (foldl_laneStepK_frame gcomp reversing unitsz ktoast
      (List.range nthreads) kcs).1
  · exact (foldl_laneStepK_frame gcomp reversing unitsz ktoast
      (List.range nthreads) kcs).2

/-- C4: contrary to the claim, a comparator fault during an in-chunk sort
pass is not reported: the kernel gpusort_single (lines 398-415) initializes
its thread-private errcode to StromError_Success, never inspects the value
the comparator writes into it, and contains no store to the status slot of
the kern_gpusort buffer (unlike gpusort_setup_chunk_rs, line 517).  For
every comparator, including every faulting one, the status field after the
invocation equals the status field before it, so no Fault is ever recorded
and no pass is aborted. -/
theorem C4_gpusort_single_never_writes_status {ρ τ : Type}
    (gcomp : GComp ρ τ) (bitonic_unitsz : ℤ) (nthreads : ℕ)
    (kg : kern_gpusort ρ τ) :
    (gpusort_single gcomp bitonic_unitsz nthreads kg).status = kg.status :=
  rfl

/-- C3: contrary to the claim, the loader does not report Success when the
batch fully fits: line 477 initializes errcode to
StromError_DataStoreNoSpace (the Success initializer is commented out), and
no statement of gpusort_setup_chunk_rs ever assigns Success, so an
invocation in which the external helpers do not fault always reports
NoSpace, whatever the batch and chunk sizes are (the kernel never compares
anything against the chunk capacity). -/
theorem C3_setup_chunk_rs_always_nospace :
    gpusort_setup_chunk_rs_status none none = StromError.DataStoreNoSpace ∧
    gpusort_setup_chunk_rs_status none none ≠ StromError.Success :=
  ⟨rfl, by decide⟩

/-- C5: contrary to the claim, slot reservation is not an additive atomic
counter: lines 486-487 use atomic_and, a bitwise AND.  Concretely, two work
groups of 64 threads loading a 192-row batch into an empty chunk
(kcs->nrows = 0) both receive kcs_offset = 0 with kcs_nitems = 64 - thereby
writing the same slot range 0..63 twice - and the row counter still holds 0
afterwards, so the reserved ranges are neither disjoint nor counted. -/
theorem C5_atomic_and_reservation_overlaps :
    setup_reserve_groups 192 64 0 [0, 1] 0 = ([(0, 64), (0, 64)], 0) := by
  decide

/-- C2: the inter-chunk merge routine cannot establish its contract: the
virtual sequence length N that run_gpusort_multi divides and compares
against is never assigned - the sizing loop at lines 313-314 has an empty
body - so the value the rest of the routine works with is whatever junk the
uninitialized variable holds (shown here by evaluating the embedded sizing
step at two junk values). -/
theorem C2_merge_sizing_loop_is_empty :
    run_gpusort_multi_sizing 2 3 7 = 7 ∧ run_gpusort_multi_sizing 2 3 99 = 99 :=
  ⟨rfl, rfl⟩

/-- C8: in the compare-swap step of the merge (lines 332-372), a tie is
resolved in favor of the record from input x at the earlier slot: when the
slot pair (idx0, idx1) holds a live x-derived virtual position at idx0 and a
live y-derived virtual position at idx1 and the comparator returns 0, the
swap guard 0 < rv at line 366 fails and both rindex entries stay in place,
keeping the x record ahead of the y record. -/
theorem C8_merge_tie_keeps_x_before_y {ρ : Type} (cmpR : ρ → ρ → ℤ)
    (xrow yrow : ℕ → ρ) (N N2 idx0 idx1 : ℕ) (st : (ℕ → ℕ) × (ℕ → ℕ))
    (hx : merge_results_get st.1 st.2 N2 idx0 < N2)
    (hy1 : N2 ≤ merge_results_get st.1 st.2 N2 idx1)
    (hy2 : merge_results_get st.1 st.2 N2 idx1 < N)
    (hN : N2 ≤ N)
    (htie : cmpR
      (merge_row_at xrow yrow N2 (merge_results_get st.1 st.2 N2 idx0))
      (merge_row_at xrow yrow N2 (merge_results_get st.1 st.2 N2 idx1)) = 0) :
    run_gpusort_multi_step cmpR xrow yrow N N2 idx0 idx1 st = st := by
  unfold run_gpusort_multi_step
  dsimp only
  rw [if_neg (by omega), if_neg (by omega), htie]
  norm_num

/-- Witness for C8 at a concrete merge state: N = 8, N2 = 4, the x rindex is
the identity, the y rindex holds the renumbered virtual positions 4..7, all
rows compare equal, and the pair (0, 4) is examined. -/
theorem C8_witness :
    merge_results_get (fun i => i) (fun i => i + 4) 4 0 < 4 ∧
    4 ≤ merge_results_get (fun i => i) (fun i => i + 4) 4 4 ∧
    merge_results_get (fun i => i) (fun i => i + 4) 4 4 < 8 ∧
    run_gpusort_multi_step (fun a b : ℤ => a - b) (fun _ => 0) (fun _ => 0)
      8 4 0 4 (fun i => i, fun i => i + 4) = (fun i => i, fun i => i + 4) :=
  ⟨by decide, by decide, by decide,
   C8_merge_tie_keeps_x_before_y (fun a b : ℤ => a - b) (fun _ => 0)
     (fun _ => 0) 8 4 0 4 (fun i => i, fun i => i + 4) (by decide) (by decide)
     (by decide) (by decide) (by decide)⟩

/-! ## Bit-level identities for the reversing partner computation -/

theorem two_pow_sub_split {w k : ℕ} (hk : k ≤ w) :
    2 ^ w - 2 ^ k = 2 ^ k * (2 ^ (w - k) - 1) := by
  have hw : (2 : ℕ) ^ w = 2 ^ k * 2 ^ (w - k) := by
    rw [← pow_add]; congr 1; omega
  have h1 : 0 < 2 ^ (w - k) := Nat.two_pow_pos (w - k)
  obtain ⟨c, hc⟩ : ∃ c, 2 ^ (w - k) = c + 1 := ⟨2 ^ (w - k) - 1, by omega⟩
  rw [hw, hc, Nat.add_sub_cancel, Nat.mul_add, Nat.mul_one]
  omega

theorem land_high_mask {w k i : ℕ} (hi : i < 2 ^ w) (hk : k ≤ w) :
    i &&& (2 ^ w - 2 ^ k) = 2 ^ k * (i / 2 ^ k) := by
  apply Nat.eq_of_testBit_eq
  intro j
  rw [Nat.testBit_and, two_pow_sub_split hk, Nat.testBit_mul_pow_two,
    Nat.testBit_mul_pow_two, Nat.testBit_two_pow_sub_one,
    ← Nat.shiftRight_eq_div_pow, Nat.testBit_shiftRight]
  by_cases hjk : k ≤ j
  · have hkj : k + (j - k) = j := by omega
    rw [hkj]
    by_cases hjw : j < w
    · simp [hjk, show j - k < w - k by omega]
    · have hzero : Nat.testBit i j = false :=
        Nat.testBit_lt_two_pow
          (lt_of_lt_of_le hi (Nat.pow_le_pow_right (by norm_num) (by omega)))
      simp [hzero]
  · simp [hjk]

theorem lnot_land_low {w k i : ℕ} (hi : i < 2 ^ w) (hk : k ≤ w) :
    (2 ^ w - 1 - i) &&& (2 ^ k - 1) = 2 ^ k - 1 - i % 2 ^ k := by
  have h2k : 0 < 2 ^ k := Nat.two_pow_pos k
  have hw : (2 : ℕ) ^ w = 2 ^ k * 2 ^ (w - k) := by
    rw [← pow_add]; congr 1; omega
  have hQ : i / 2 ^ k < 2 ^ (w - k) := by
    rw [Nat.div_lt_iff_lt_mul h2k]
    calc i < 2 ^ w := hi
      _ = 2 ^ (w - k) * 2 ^ k := by rw [hw, Nat.mul_comm]
  have hr : i % 2 ^ k < 2 ^ k := Nat.mod_lt _ h2k
  have hdm := Nat.div_add_mod i (2 ^ k)
  have hdecomp : 2 ^ w - 1 - i =
      2 ^ k * (2 ^ (w - k) - 1 - i / 2 ^ k) + (2 ^ k - 1 - i % 2 ^ k) := by
    obtain ⟨c, hc⟩ : ∃ c, 2 ^ (w - k) - 1 - i / 2 ^ k = c := ⟨_, rfl⟩
    have hsum : 2 ^ (w - k) = i / 2 ^ k + 1 + c := by omega
    rw [hsum] at hw
    rw [hc]
    rw [Nat.mul_add, Nat.mul_add, Nat.mul_one] at hw
    omega
  rw [Nat.and_pow_two_sub_one_eq_mod, hdecomp, Nat.mul_add_mod,
    Nat.mod_eq_of_lt (by omega)]

theorem laneIdx1_rev_eq_buddy {k i : ℕ} (hk : k ≤ 32) (hi : i < 2 ^ 32) :
    laneIdx1 true (2 ^ k) i = buddy true (2 ^ k) i := by
  have h2k : (2 : ℕ) ^ k ≤ 2 ^ 32 := Nat.pow_le_pow_right (by norm_num) hk
  have h2k0 : 0 < (2 : ℕ) ^ k := Nat.two_pow_pos k
  have h32 : (4294967295 : ℕ) = 2 ^ 32 - 1 := by norm_num
  show (i &&& lnot32 (2 ^ k - 1)) ||| (lnot32 i &&& (2 ^ k - 1)) =
    i / 2 ^ k * 2 ^ k + (2 ^ k - 1 - i % 2 ^ k)
  unfold lnot32
  rw [h32]
  have e1 : 2 ^ 32 - 1 - (2 ^ k - 1) = 2 ^ 32 - 2 ^ k := by omega
  rw [e1, land_high_mask hi hk, lnot_land_low hi hk,
    ← Nat.mul_add_lt_is_or (by omega) (i / 2 ^ k), Nat.mul_comm]

/-! ## Lane geometry -/

theorem addmul_mod {u a b : ℕ} (hb : b < u) : (a * u + b) % u = b := by
  rw [Nat.add_comm, Nat.add_mul_mod_self_right, Nat.mod_eq_of_lt hb]

theorem addmul_div {u a b : ℕ} (hb : b < u) : (a * u + b) / u = a := by
  have hu : 0 < u := by omega
  rw [Nat.add_comm, Nat.add_mul_div_right _ _ hu, Nat.div_eq_of_lt hb,
    Nat.zero_add]

theorem laneIdx0_spec {u h t : ℕ} (hu : u = 2 * h) (hh : 0 < h) :
    laneIdx0 u t = t / h * u + t % h ∧ laneIdx0 u t % u = t % h ∧
    laneIdx0 u t / u = t / h := by
  have h2 : u / 2 = h := by omega
  have hth : t % h < h := Nat.mod_lt _ hh
  have hthu : t % h < u := by omega
  refine ⟨?_, ?_, ?_⟩
  · unfold laneIdx0; rw [h2]
  · unfold laneIdx0; rw [h2, addmul_mod hthu]
  · unfold laneIdx0; rw [h2, addmul_div hthu]

theorem buddy_rev_eq {u h : ℕ} (hu : u = 2 * h) (hh : 0 < h) (i : ℕ) :
    buddy true u i = i / u * u + (u - 1 - i % u) := rfl

theorem buddy_spec {u h : ℕ} (rev : Bool) (hu : u = 2 * h) (hh : 0 < h)
    (i : ℕ) :
    buddy rev u i / u = i / u ∧ buddy rev u (buddy rev u i) = i ∧
    (i % u < h ↔ i < buddy rev u i) ∧ buddy rev u i ≠ i := by
  have hupos : 0 < u := by omega
  have hr : i % u < u := Nat.mod_lt _ hupos
  have hdm : i / u * u + i % u = i := by
    have hdm0 := Nat.div_add_mod i u
    rw [Nat.mul_comm] at hdm0
    exact hdm0
  cases rev with
  | true =>
    have hb : buddy true u i = i / u * u + (u - 1 - i % u) := rfl
    have hlow : u - 1 - i % u < u := by omega
    have hbmod : buddy true u i % u = u - 1 - i % u := by
      rw [hb, addmul_mod hlow]
    have hbdiv : buddy true u i / u = i / u := by
      rw [hb, addmul_div hlow]
    refine ⟨hbdiv, ?_, ?_, ?_⟩
    · have hb2 : buddy true u (buddy true u i) =
          buddy true u i / u * u + (u - 1 - buddy true u i % u) := rfl
      rw [hb2, hbdiv, hbmod]
      omega
    · rw [hb]
      omega
    · rw [hb]
      omega
  | false =>
    have hb : buddy false u i =
        if i % u < u / 2 then i + u / 2 else i - u / 2 := rfl
    have h2 : u / 2 = h := by omega
    by_cases hc : i % u < h
    · have hbv : buddy false u i = i + h := by
        rw [hb, h2, if_pos hc]
      have hmod2 : (i + h) % u = i % u + h := by
        have : i + h = i / u * u + (i % u + h) := by omega
        rw [this, addmul_mod (by omega)]
      refine ⟨?_, ?_, ?_, ?_⟩
      · have : i + h = i / u * u + (i % u + h) := by omega
        rw [hbv, this, addmul_div (by omega)]
      · have hc2 : ¬ (i + h) % u < h := by omega
        have hbb : buddy false u (i + h) = i + h - h := by
          show (if (i + h) % u < u / 2 then i + h + u / 2 else i + h - u / 2)
            = i + h - h
          rw [h2, if_neg hc2]
        rw [hbv, hbb]
        omega
      · rw [hbv]
        omega
      · rw [hbv]
        omega
    · have hbv : buddy false u i = i - h := by
        rw [hb, h2, if_neg hc]
      have hile : h ≤ i := by omega
      have hsub : i - h = i / u * u + (i % u - h) := by omega
      have hmod2 : (i - h) % u = i % u - h := by
        rw [hsub, addmul_mod (by omega)]
      refine ⟨?_, ?_, ?_, ?_⟩
      · rw [hbv, hsub, addmul_div (by omega)]
      · have hc2 : (i - h) % u < h := by omega
        have hbb : buddy false u (i - h) = i - h + h := by
          show (if (i - h) % u < u / 2 then i - h + u / 2 else i - h - u / 2)
            = i - h + h
          rw [h2, if_pos hc2]
        rw [hbv, hbb]
        omega
      · rw [hbv]
        omega
      · rw [hbv]
        omega

theorem pow_two_split {k : ℕ} (hk1 : 1 ≤ k) : (2 : ℕ) ^ k = 2 * 2 ^ (k - 1) := by
  have h := pow_succ 2 (k - 1)
  have hk' : k - 1 + 1 = k := by omega
  rw [hk'] at h
  omega

theorem laneIdx0_lt_two_pow_32 {k t : ℕ} (hk1 : 1 ≤ k) (hk : k ≤ 31)
    (ht : t < 2 ^ 31) : laneIdx0 (2 ^ k) t < 2 ^ 32 := by
  have hh : 0 < (2 : ℕ) ^ (k - 1) := Nat.two_pow_pos (k - 1)
  have hu : (2 : ℕ) ^ k = 2 * 2 ^ (k - 1) := pow_two_split hk1
  have he := (laneIdx0_spec (t := t) hu hh).1
  have h3 : t / 2 ^ (k - 1) * 2 ^ k = 2 * (t / 2 ^ (k - 1) * 2 ^ (k - 1)) := by
    rw [hu]; ring
  have h4 : t / 2 ^ (k - 1) * 2 ^ (k - 1) + t % 2 ^ (k - 1) = t := by
    have h5 := Nat.div_add_mod t (2 ^ (k - 1))
    rw [Nat.mul_comm] at h5
    exact h5
  omega

theorem laneIdx0_lt_laneIdx1 {k t : ℕ} (rev : Bool) (hk1 : 1 ≤ k)
    (hk : k ≤ 31) (ht : t < 2 ^ 31) :
    laneIdx0 (2 ^ k) t < laneIdx1 rev (2 ^ k) (laneIdx0 (2 ^ k) t) := by
  have hh : 0 < (2 : ℕ) ^ (k - 1) := Nat.two_pow_pos (k - 1)
  have hu : (2 : ℕ) ^ k = 2 * 2 ^ (k - 1) := pow_two_split hk1
  have hmod : laneIdx0 (2 ^ k) t % 2 ^ k = t % 2 ^ (k - 1) :=
    (laneIdx0_spec hu hh).2.1
  have hlow : laneIdx0 (2 ^ k) t % 2 ^ k < 2 ^ (k - 1) := by
    rw [hmod]; exact Nat.mod_lt _ hh
  cases rev with
  | true =>
    rw [laneIdx1_rev_eq_buddy (by omega) (laneIdx0_lt_two_pow_32 hk1 hk ht)]
    exact ((buddy_spec true hu hh _).2.2.1).mp hlow
  | false =>
    show laneIdx0 (2 ^ k) t < laneIdx0 (2 ^ k) t + 2 ^ k / 2
    have : 0 < 2 ^ k / 2 := by omega
    omega

/-- Zeta-expanded form of laneStep, for case analysis. -/
theorem laneStep_eq {α : Type} (cmp : α → α → ℤ) (rev : Bool)
    (u nrows : ℕ) (res : ℕ → α) (t : ℕ) :
    laneStep cmp rev u nrows res t =
      if nrows ≤ laneIdx1 rev u (laneIdx0 u t) then res
      else if 0 < cmp (res (laneIdx0 u t))
          (res (laneIdx1 rev u (laneIdx0 u t))) then
        Function.update
          (Function.update res (laneIdx0 u t)
            (res (laneIdx1 rev u (laneIdx0 u t))))
          (laneIdx1 rev u (laneIdx0 u t)) (res (laneIdx0 u t))
      else res := rfl

/-! ## Window permutation machinery -/

theorem cons_set_perm {α : Type} :
    ∀ (t : List α) (m : ℕ) (hm : m < t.length) (v : α),
      (t[m] :: t.set m v).Perm (v :: t)
  | b :: s, 0, _, v => by
    simpa using List.Perm.swap v b s
  | b :: s, m + 1, hm, v => by
    have hms : m < s.length := by simpa using hm
    simp only [List.getElem_cons_succ, List.set_cons_succ]
    refine List.Perm.trans (List.Perm.swap b (s[m]) (s.set m v)) ?_
    refine List.Perm.trans ((cons_set_perm s m hms v).cons b) ?_
    exact List.Perm.swap v b s

theorem set_set_swap_perm {α : Type} :
    ∀ (l : List α) (i j : ℕ) (hi : i < l.length) (hj : j < l.length),
      ((l.set i l[j]).set j l[i]).Perm l
  | [], _, _, hi, _ => by simp at hi
  | a :: t, 0, 0, _, _ => by simp
  | a :: t, 0, m + 1, hi, hj => by
    simp only [List.getElem_cons_succ, List.getElem_cons_zero,
      List.set_cons_zero, List.set_cons_succ]
    exact cons_set_perm t m (by simpa using hj) a
  | a :: t, n + 1, 0, hi, hj => by
    simp only [List.getElem_cons_succ, List.getElem_cons_zero,
      List.set_cons_zero, List.set_cons_succ]
    exact cons_set_perm t n (by simpa using hi) a
  | a :: t, n + 1, m + 1, hi, hj => by
    simp only [List.getElem_cons_succ, List.set_cons_succ]
    exact (set_set_swap_perm t n m (by simpa using hi)
      (by simpa using hj)).cons a

theorem window_length {α : Type} (L : ℕ) (f : ℕ → α) :
    (window L f).length = L := by simp [window]

theorem window_getElem {α : Type} (L : ℕ) (f : ℕ → α) (i : ℕ)
    (h : i < (window L f).length) : (window L f)[i] = f i := by
  simp [window]

theorem window_update {α : Type} (L : ℕ) (f : ℕ → α) (a : ℕ) (ha : a < L)
    (v : α) : window L (Function.update f a v) = (window L f).set a v := by
  apply List.ext_getElem
  · simp [window]
  · intro i h1 h2
    have hiL : i < L := by simpa [window] using h1
    simp only [window, List.getElem_map, List.getElem_range,
      List.getElem_set, Function.update_apply]
    by_cases h : i = a
    · subst h; simp
    · rw [if_neg h, if_neg (fun hh => h hh.symm)]

theorem window_swap_perm {α : Type} (L i j : ℕ) (f : ℕ → α) (hi : i < L)
    (hj : j < L) :
    (window L (Function.update (Function.update f i (f j)) j
      (f i))).Perm (window L f) := by
  rw [window_update L _ j hj (f i), window_update L f i hi (f j)]
  have hi' : i < (window L f).length := by rw [window_length]; exact hi
  have hj' : j < (window L f).length := by rw [window_length]; exact hj
  have e1 : f j = (window L f)[j] := (window_getElem L f j hj').symm
  have e2 : f i = (window L f)[i] := (window_getElem L f i hi').symm
  rw [e1, e2]
  exact set_set_swap_perm (window L f) i j hi' hj'

theorem laneStep_window_perm {k : ℕ} (cmp : ℕ → ℕ → ℤ) (rev : Bool)
    (t nrows L : ℕ) (res : ℕ → ℕ) (hk1 : 1 ≤ k) (hk : k ≤ 31)
    (ht : t < 2 ^ 31) (hn : nrows ≤ L) :
    (window L (laneStep cmp rev (2 ^ k) nrows res t)).Perm (window L res) := by
  rw [laneStep_eq]
  split
  · exact List.Perm.refl _
  · rename_i hguard
    split
    · have hord := laneIdx0_lt_laneIdx1 rev hk1 hk ht (t := t)
      exact window_swap_perm L _ _ res (by omega) (by omega)
    · exact List.Perm.refl _

theorem foldl_laneStep_window_perm {k : ℕ} (cmp : ℕ → ℕ → ℤ) (rev : Bool)
    (nrows L : ℕ) (hk1 : 1 ≤ k) (hk : k ≤ 31) (hn : nrows ≤ L) :
    ∀ (l : List ℕ), (∀ x ∈ l, x < 2 ^ 31) → ∀ (res : ℕ → ℕ),
      (window L (l.foldl (laneStep cmp rev (2 ^ k) nrows) res)).Perm
        (window L res)
  | [], _, res => List.Perm.refl _
  | x :: l, hmem, res => by
    simp only [List.foldl_cons]
    exact (foldl_laneStep_window_perm cmp rev nrows L hk1 hk hn l
      (fun y hy => hmem y (List.mem_cons_of_mem x hy))
      (laneStep cmp rev (2 ^ k) nrows res x)).trans
      (laneStep_window_perm cmp rev x nrows L res hk1 hk
        (hmem x (List.mem_cons_self x l)) hn)

theorem run_gpusort_single_window_perm {k : ℕ} (cmp : ℕ → ℕ → ℤ)
    (rev : Bool) (nrows T L : ℕ) (res : ℕ → ℕ) (hk1 : 1 ≤ k) (hk : k ≤ 31)
    (hT : T ≤ 2 ^ 31) (hn : nrows ≤ L) :
    (window L (run_gpusort_single cmp rev (2 ^ k) nrows T res)).Perm
      (window L res) := by
  unfold run_gpusort_single
  exact foldl_laneStep_window_perm cmp rev nrows L hk1 hk hn
    (List.range T) (fun x hx => by have := List.mem_range.mp hx; omega) res

/-- C6: lane geometry of a bitonic pass with unit size u = 2^k.  The lane of
thread t owns idx0 = (t / (u/2)) * u + t mod (u/2); its partner is the slot
whose offset within the unit is the bitwise complement u - 1 - (idx0 mod u)
of the idx0 offset when reversing, and idx0 + u/2 otherwise; and whenever
the partner slot lies at or beyond the live row count the thread leaves the
index array unchanged. -/
theorem C6_lane_geometry (cmp : ℕ → ℕ → ℤ) (res : ℕ → ℕ) (k t nrows : ℕ)
    (hk1 : 1 ≤ k) (hk : k ≤ 31) (ht : t < 2 ^ 31) :
    laneIdx0 (2 ^ k) t = t / (2 ^ k / 2) * 2 ^ k + t % (2 ^ k / 2) ∧
    laneIdx1 true (2 ^ k) (laneIdx0 (2 ^ k) t) =
      laneIdx0 (2 ^ k) t / 2 ^ k * 2 ^ k +
        (2 ^ k - 1 - laneIdx0 (2 ^ k) t % 2 ^ k) ∧
    laneIdx1 false (2 ^ k) (laneIdx0 (2 ^ k) t) =
      laneIdx0 (2 ^ k) t + 2 ^ k / 2 ∧
    (∀ rev : Bool, nrows ≤ laneIdx1 rev (2 ^ k) (laneIdx0 (2 ^ k) t) →
      laneStep cmp rev (2 ^ k) nrows res t = res) := by
  refine ⟨rfl, ?_, rfl, ?_⟩
  · rw [laneIdx1_rev_eq_buddy (by omega) (laneIdx0_lt_two_pow_32 hk1 hk ht)]
    rfl
  · intro rev hge
    rw [laneStep_eq, if_pos hge]

/-- Witness for C6 at k = 2 (unit size 4), thread 5, row count 1: the stated
formulas hold and the guard makes the lane a no-op. -/
theorem C6_witness :
    laneIdx0 (2 ^ 2) 5 = 5 / (2 ^ 2 / 2) * 2 ^ 2 + 5 % (2 ^ 2 / 2) ∧
    laneIdx1 true (2 ^ 2) (laneIdx0 (2 ^ 2) 5) =
      laneIdx0 (2 ^ 2) 5 / 2 ^ 2 * 2 ^ 2 +
        (2 ^ 2 - 1 - laneIdx0 (2 ^ 2) 5 % 2 ^ 2) ∧
    laneIdx1 false (2 ^ 2) (laneIdx0 (2 ^ 2) 5) =
      laneIdx0 (2 ^ 2) 5 + 2 ^ 2 / 2 ∧
    (∀ rev : Bool, 1 ≤ laneIdx1 rev (2 ^ 2) (laneIdx0 (2 ^ 2) 5) →
      laneStep (fun _ _ => (0 : ℤ)) rev (2 ^ 2) 1 (fun i => i) 5 =
        (fun i => i)) :=
  C6_lane_geometry (fun _ _ => (0 : ℤ)) (fun i => i) 2 5 1 (by norm_num)
    (by norm_num) (by norm_num)

/-- C10: in every pass, each lane computes a pair idx0 < idx1, and either
leaves the index array unchanged or swaps exactly the entries at idx0 and
idx1; consequently a whole pass (all launched threads) preserves the live
window of the index array as a multiset. -/
theorem C10_pass_preserves_multiset (cmp : ℕ → ℕ → ℤ) (rev : Bool)
    (k t nrows T L : ℕ) (res : ℕ → ℕ) (hk1 : 1 ≤ k) (hk : k ≤ 31)
    (ht : t < 2 ^ 31) (hT : T ≤ 2 ^ 31) (hn : nrows ≤ L) :
    laneIdx0 (2 ^ k) t < laneIdx1 rev (2 ^ k) (laneIdx0 (2 ^ k) t) ∧
    (laneStep cmp rev (2 ^ k) nrows res t = res ∨
      laneStep cmp rev (2 ^ k) nrows res t =
        Function.update
          (Function.update res (laneIdx0 (2 ^ k) t)
            (res (laneIdx1 rev (2 ^ k) (laneIdx0 (2 ^ k) t))))
          (laneIdx1 rev (2 ^ k) (laneIdx0 (2 ^ k) t))
          (res (laneIdx0 (2 ^ k) t))) ∧
    (window L (run_gpusort_single cmp rev (2 ^ k) nrows T res)).Perm
      (window L res) := by
  refine ⟨laneIdx0_lt_laneIdx1 rev hk1 hk ht, ?_, ?_⟩
  · rw [laneStep_eq]
    split
    · exact Or.inl rfl
    · split
      · exact Or.inr rfl
      · exact Or.inl rfl
  · exact run_gpusort_single_window_perm cmp rev nrows T L res hk1 hk hT hn

/-- Witness for C10 at k = 1 (unit size 2), thread 0, a two-row chunk and a
two-thread launch. -/
theorem C10_witness :
    laneIdx0 (2 ^ 1) 0 < laneIdx1 true (2 ^ 1) (laneIdx0 (2 ^ 1) 0) ∧
    (laneStep (fun a b : ℕ => (a : ℤ) - b) true (2 ^ 1) 2 (fun i => i) 0 =
        (fun i => i) ∨
      laneStep (fun a b : ℕ => (a : ℤ) - b) true (2 ^ 1) 2 (fun i => i) 0 =
        Function.update
          (Function.update (fun i => i) (laneIdx0 (2 ^ 1) 0)
            ((fun i => i) (laneIdx1 true (2 ^ 1) (laneIdx0 (2 ^ 1) 0))))
          (laneIdx1 true (2 ^ 1) (laneIdx0 (2 ^ 1) 0))
          ((fun i => i) (laneIdx0 (2 ^ 1) 0))) ∧
    (window 2 (run_gpusort_single (fun a b : ℕ => (a : ℤ) - b) true (2 ^ 1)
      2 2 (fun i => i))).Perm (window 2 (fun i => i)) :=
  C10_pass_preserves_multiset (fun a b : ℕ => (a : ℤ) - b) true 1 0 2 2 2
    (fun i => i) (by norm_num) (by norm_num) (by norm_num) (by norm_num)
    (by norm_num)

/-! ## Pointwise form of one pass -/

theorem passFn_eval_lo {α : Type} (cmp : α → α → ℤ) (rev : Bool) {u h : ℕ}
    (hu : u = 2 * h) (hh : 0 < h) {i : ℕ} (hc : i % u < h) (g : ℕ → α) :
    passFn cmp rev u g i = cexLo cmp (g i) (g (buddy rev u i)) := by
  unfold passFn
  rw [if_pos (((buddy_spec rev hu hh i).2.2.1).mp hc)]

theorem passFn_eval_hi {α : Type} (cmp : α → α → ℤ) (rev : Bool) {u h : ℕ}
    (hu : u = 2 * h) (hh : 0 < h) {i : ℕ} (hc : ¬ i % u < h) (g : ℕ → α) :
    passFn cmp rev u g i = cexHi cmp (g (buddy rev u i)) (g i) := by
  unfold passFn
  rw [if_neg (fun hlt => hc (((buddy_spec rev hu hh i).2.2.1).mpr hlt))]

theorem gpassFn_apply {α : Type} (cmp : α → α → ℤ) (rev : Bool)
    (u n : ℕ) (g : ℕ → α) (i : ℕ) :
    gpassFn cmp rev u n g i =
      if max i (buddy rev u i) < n then
        if i < buddy rev u i then cexLo cmp (g i) (g (buddy rev u i))
        else cexHi cmp (g (buddy rev u i)) (g i)
      else g i := rfl

theorem laneIdx1_eq_buddy {k t : ℕ} (rev : Bool) (hk1 : 1 ≤ k) (hk : k ≤ 31)
    (ht : t < 2 ^ 31) :
    laneIdx1 rev (2 ^ k) (laneIdx0 (2 ^ k) t) =
      buddy rev (2 ^ k) (laneIdx0 (2 ^ k) t) := by
  have hh : 0 < (2 : ℕ) ^ (k - 1) := Nat.two_pow_pos (k - 1)
  have hu : (2 : ℕ) ^ k = 2 * 2 ^ (k - 1) := pow_two_split hk1
  cases rev with
  | true =>
    exact laneIdx1_rev_eq_buddy (by omega) (laneIdx0_lt_two_pow_32 hk1 hk ht)
  | false =>
    have hmod : laneIdx0 (2 ^ k) t % 2 ^ k = t % 2 ^ (k - 1) :=
      (laneIdx0_spec hu hh).2.1
    have hmm := Nat.mod_lt t hh
    have hlow : laneIdx0 (2 ^ k) t % 2 ^ k < 2 ^ k / 2 := by
      rw [hmod]; omega
    show laneIdx0 (2 ^ k) t + 2 ^ k / 2 =
      if laneIdx0 (2 ^ k) t % 2 ^ k < 2 ^ k / 2 then
        laneIdx0 (2 ^ k) t + 2 ^ k / 2
      else laneIdx0 (2 ^ k) t - 2 ^ k / 2
    rw [if_pos hlow]

/-! ## The lane owning a slot, and its inverse geometry -/

theorem laneOf_eval_lo {u i : ℕ} (rev : Bool) (hc : i % u < u / 2) :
    laneOf rev u i = i / u * (u / 2) + i % u := by
  unfold laneOf
  rw [if_pos hc]

theorem laneOf_eval_rev {u i : ℕ} (hc : ¬ i % u < u / 2) :
    laneOf true u i = i / u * (u / 2) + (u - 1 - i % u) := by
  unfold laneOf
  rw [if_neg hc, if_pos rfl]

theorem laneOf_eval_fhi {u i : ℕ} (hc : ¬ i % u < u / 2) :
    laneOf false u i = i / u * (u / 2) + (i % u - u / 2) := by
  unfold laneOf
  rw [if_neg hc, if_neg (by decide)]

theorem laneOf_laneIdx0 {u h t : ℕ} (rev : Bool) (hu : u = 2 * h)
    (hh : 0 < h) : laneOf rev u (laneIdx0 u t) = t := by
  have h2 : u / 2 = h := by omega
  have hs := laneIdx0_spec (t := t) hu hh
  have hmodlt : laneIdx0 u t % u < u / 2 := by
    rw [hs.2.1, h2]; exact Nat.mod_lt _ hh
  rw [laneOf_eval_lo rev hmodlt, h2, hs.2.1, hs.2.2]
  have h5 := Nat.div_add_mod t h
  rw [Nat.mul_comm] at h5
  exact h5

theorem laneOf_buddy_laneIdx0 {u h t : ℕ} (rev : Bool) (hu : u = 2 * h)
    (hh : 0 < h) : laneOf rev u (buddy rev u (laneIdx0 u t)) = t := by
  have h2 : u / 2 = h := by omega
  have hs := laneIdx0_spec (t := t) hu hh
  have hmodlt : laneIdx0 u t % u < h := by
    rw [hs.2.1]; exact Nat.mod_lt _ hh
  have htmod : t % h < h := Nat.mod_lt _ hh
  have h5 := Nat.div_add_mod t h
  rw [Nat.mul_comm] at h5
  cases rev with
  | true =>
    have hb : buddy true u (laneIdx0 u t) =
        laneIdx0 u t / u * u + (u - 1 - laneIdx0 u t % u) := rfl
    have hbmod : buddy true u (laneIdx0 u t) % u = u - 1 - laneIdx0 u t % u := by
      rw [hb]; exact addmul_mod (by omega)
    have hbdiv : buddy true u (laneIdx0 u t) / u = laneIdx0 u t / u := by
      rw [hb]; exact addmul_div (by omega)
    have hge : ¬ buddy true u (laneIdx0 u t) % u < u / 2 := by
      rw [hbmod, h2]; omega
    rw [laneOf_eval_rev hge, hbmod, hbdiv, h2, hs.2.1, hs.2.2]
    omega
  | false =>
    have hblt : laneIdx0 u t % u < u / 2 := by omega
    have hb : buddy false u (laneIdx0 u t) = laneIdx0 u t + u / 2 := by
      show (if laneIdx0 u t % u < u / 2 then laneIdx0 u t + u / 2
        else laneIdx0 u t - u / 2) = laneIdx0 u t + u / 2
      rw [if_pos hblt]
    have hdecomp : laneIdx0 u t + u / 2 =
        laneIdx0 u t / u * u + (laneIdx0 u t % u + h) := by
      have h6 := Nat.div_add_mod (laneIdx0 u t) u
      rw [Nat.mul_comm] at h6
      omega
    have hbmod : buddy false u (laneIdx0 u t) % u = laneIdx0 u t % u + h := by
      rw [hb, hdecomp]; exact addmul_mod (by omega)
    have hbdiv : buddy false u (laneIdx0 u t) / u = laneIdx0 u t / u := by
      rw [hb, hdecomp]; exact addmul_div (by omega)
    have hge : ¬ buddy false u (laneIdx0 u t) % u < u / 2 := by
      rw [hbmod, h2]; omega
    rw [laneOf_eval_fhi hge, hbmod, hbdiv, h2, hs.2.1, hs.2.2]
    omega

theorem laneOf_cases {u h i t : ℕ} (rev : Bool) (hu : u = 2 * h) (hh : 0 < h)
    (hl : laneOf rev u i = t) :
    i = laneIdx0 u t ∨ i = buddy rev u (laneIdx0 u t) := by
  have h2 : u / 2 = h := by omega
  have hupos : 0 < u := by omega
  have hr : i % u < u := Nat.mod_lt _ hupos
  have hdm : i / u * u + i % u = i := by
    have h5 := Nat.div_add_mod i u
    rw [Nat.mul_comm] at h5
    exact h5
  have hs := laneIdx0_spec (t := t) hu hh
  by_cases hc : i % u < h
  · left
    rw [laneOf_eval_lo rev (by omega), h2] at hl
    have hdiv : t / h = i / u := by rw [← hl]; exact addmul_div (by omega)
    have hmod : t % h = i % u := by rw [← hl]; exact addmul_mod hc
    rw [hs.1, hdiv, hmod]
    omega
  · right
    cases rev with
    | true =>
      rw [laneOf_eval_rev (by omega), h2] at hl
      have hlt2 : u - 1 - i % u < h := by omega
      have hdiv : t / h = i / u := by rw [← hl]; exact addmul_div (by omega)
      have hmod : t % h = u - 1 - i % u := by
        rw [← hl]; exact addmul_mod hlt2
      have hb : buddy true u (laneIdx0 u t) =
          laneIdx0 u t / u * u + (u - 1 - laneIdx0 u t % u) := rfl
      rw [hb, hs.2.1, hs.2.2, hdiv, hmod]
      omega
    | false =>
      rw [laneOf_eval_fhi (by omega), h2] at hl
      have hlt2 : i % u - h < h := by omega
      have hdiv : t / h = i / u := by rw [← hl]; exact addmul_div (by omega)
      have hmod : t % h = i % u - h := by
        rw [← hl]; exact addmul_mod hlt2
      have hblt : laneIdx0 u t % u < u / 2 := by
        rw [hs.2.1, h2]; exact Nat.mod_lt _ hh
      have hb : buddy false u (laneIdx0 u t) = laneIdx0 u t + u / 2 := by
        show (if laneIdx0 u t % u < u / 2 then laneIdx0 u t + u / 2
          else laneIdx0 u t - u / 2) = laneIdx0 u t + u / 2
        rw [if_pos hblt]
      rw [hb, hs.1, hdiv, hmod, h2]
      omega

theorem laneOf_lt_of_lt {u h i N : ℕ} (rev : Bool) (hu : u = 2 * h)
    (hh : 0 < h) (hdvd : u ∣ N) (hi : i < N) : laneOf rev u i < N := by
  have h2 : u / 2 = h := by omega
  have hupos : 0 < u := by omega
  have hr : i % u < u := Nat.mod_lt _ hupos
  have hbr : laneOf rev u i ≤ i / u * h + (h - 1) := by
    unfold laneOf
    rw [h2]
    split
    · omega
    · split <;> omega
  have hdivlt : i / u < N / u := Nat.div_lt_div_of_lt_of_dvd hdvd hi
  have hmul : (i / u + 1) * h ≤ N / u * h := Nat.mul_le_mul_right h (by omega)
  have hone : (i / u + 1) * h = i / u * h + h := by ring
  have hNu : N / u * u = N := Nat.div_mul_cancel hdvd
  have hexp : N / u * u = 2 * (N / u * h) := by rw [hu]; ring
  omega

/-! ## One fold step of the embedded pass -/

theorem laneStep_apply_other {α : Type} (cmp : α → α → ℤ) (rev : Bool)
    (u n : ℕ) (F : ℕ → α) (T i : ℕ) (h0 : i ≠ laneIdx0 u T)
    (h1 : i ≠ laneIdx1 rev u (laneIdx0 u T)) :
    laneStep cmp rev u n F T i = F i := by
  rw [laneStep_eq]
  split
  · rfl
  · split
    · rw [Function.update_apply, if_neg h1, Function.update_apply, if_neg h0]
    · rfl

theorem laneStep_apply_idx0 {α : Type} (cmp : α → α → ℤ) (rev : Bool)
    (u n : ℕ) (F : ℕ → α) (T : ℕ)
    (hne : laneIdx0 u T ≠ laneIdx1 rev u (laneIdx0 u T)) :
    laneStep cmp rev u n F T (laneIdx0 u T) =
      if n ≤ laneIdx1 rev u (laneIdx0 u T) then F (laneIdx0 u T)
      else cexLo cmp (F (laneIdx0 u T))
        (F (laneIdx1 rev u (laneIdx0 u T))) := by
  rw [laneStep_eq]
  split
  · rfl
  · unfold cexLo
    split
    · rw [Function.update_apply, if_neg hne, Function.update_apply, if_pos rfl]
    · rfl

theorem laneStep_apply_idx1 {α : Type} (cmp : α → α → ℤ) (rev : Bool)
    (u n : ℕ) (F : ℕ → α) (T : ℕ) :
    laneStep cmp rev u n F T (laneIdx1 rev u (laneIdx0 u T)) =
      if n ≤ laneIdx1 rev u (laneIdx0 u T) then
        F (laneIdx1 rev u (laneIdx0 u T))
      else cexHi cmp (F (laneIdx0 u T))
        (F (laneIdx1 rev u (laneIdx0 u T))) := by
  rw [laneStep_eq]
  split
  · rfl
  · unfold cexHi
    split
    · rw [Function.update_apply, if_pos rfl]
    · rfl

/-! ## The embedded pass equals the guarded pointwise pass -/

theorem foldl_laneStep_eq_gpassFn {α : Type} (cmp : α → α → ℤ) (rev : Bool)
    {k p : ℕ} (n : ℕ) (hk1 : 1 ≤ k) (hkp : k ≤ p) (hp : p ≤ 31)
    (hn : n ≤ 2 ^ p) (res : ℕ → α) :
    ∀ T, T ≤ 2 ^ p → ∀ i,
      (List.range T).foldl (laneStep cmp rev (2 ^ k) n) res i =
        if laneOf rev (2 ^ k) i < T then gpassFn cmp rev (2 ^ k) n res i
        else res i := by
  have hh : 0 < (2 : ℕ) ^ (k - 1) := Nat.two_pow_pos (k - 1)
  have hu : (2 : ℕ) ^ k = 2 * 2 ^ (k - 1) := pow_two_split hk1
  have hpb : (2 : ℕ) ^ p ≤ 2 ^ 31 := Nat.pow_le_pow_right (by norm_num) hp
  intro T
  induction T with
  | zero => intro _ i; simp
  | succ T IH =>
    intro hT i
    have hT' : T ≤ 2 ^ p := by omega
    have hTlt : T < 2 ^ 31 := by omega
    rw [List.range_succ, List.foldl_append, List.foldl_cons, List.foldl_nil]
    have hab : laneIdx1 rev (2 ^ k) (laneIdx0 (2 ^ k) T) =
        buddy rev (2 ^ k) (laneIdx0 (2 ^ k) T) :=
      laneIdx1_eq_buddy rev hk1 (by omega) hTlt
    have hord : laneIdx0 (2 ^ k) T < laneIdx1 rev (2 ^ k) (laneIdx0 (2 ^ k) T) :=
      laneIdx0_lt_laneIdx1 rev hk1 (by omega) hTlt
    have hla : laneOf rev (2 ^ k) (laneIdx0 (2 ^ k) T) = T :=
      laneOf_laneIdx0 rev hu hh
    have hlb : laneOf rev (2 ^ k) (laneIdx1 rev (2 ^ k) (laneIdx0 (2 ^ k) T))
        = T := by
      rw [hab]; exact laneOf_buddy_laneIdx0 rev hu hh
    have hFa : (List.range T).foldl (laneStep cmp rev (2 ^ k) n) res
        (laneIdx0 (2 ^ k) T) = res (laneIdx0 (2 ^ k) T) := by
      rw [IH hT' _, hla, if_neg (by omega)]
    have hFb : (List.range T).foldl (laneStep cmp rev (2 ^ k) n) res
        (laneIdx1 rev (2 ^ k) (laneIdx0 (2 ^ k) T)) =
        res (laneIdx1 rev (2 ^ k) (laneIdx0 (2 ^ k) T)) := by
      rw [IH hT' _, hlb, if_neg (by omega)]
    by_cases hcase : laneOf rev (2 ^ k) i = T
    · rcases laneOf_cases rev hu hh hcase with hia | hib
      · subst hia
        rw [laneStep_apply_idx0 cmp rev (2 ^ k) n _ T (Nat.ne_of_lt hord),
          hFa, hFb, hla, if_pos (Nat.lt_succ_self T), gpassFn_apply, ← hab,
          Nat.max_eq_right (Nat.le_of_lt hord)]
        by_cases hg : n ≤ laneIdx1 rev (2 ^ k) (laneIdx0 (2 ^ k) T)
        · rw [if_pos hg, if_neg (by omega)]
        · rw [if_neg hg, if_pos (by omega), if_pos hord]
      · rw [← hab] at hib
        subst hib
        rw [laneStep_apply_idx1 cmp rev (2 ^ k) n _ T, hFa, hFb, hlb,
          if_pos (Nat.lt_succ_self T), gpassFn_apply]
        have hbud : buddy rev (2 ^ k)
            (laneIdx1 rev (2 ^ k) (laneIdx0 (2 ^ k) T)) =
            laneIdx0 (2 ^ k) T := by
          rw [hab]; exact (buddy_spec rev hu hh _).2.1
        rw [hbud, Nat.max_eq_left (Nat.le_of_lt hord)]
        by_cases hg : n ≤ laneIdx1 rev (2 ^ k) (laneIdx0 (2 ^ k) T)
        · rw [if_pos hg, if_neg (by omega)]
        · rw [if_neg hg, if_pos (by omega), if_neg (by omega)]
    · have hi0 : i ≠ laneIdx0 (2 ^ k) T := fun he => hcase (he ▸ hla)
      have hi1 : i ≠ laneIdx1 rev (2 ^ k) (laneIdx0 (2 ^ k) T) :=
        fun he => hcase (he ▸ hlb)
      rw [laneStep_apply_other cmp rev (2 ^ k) n _ T i hi0 hi1, IH hT' i]
      by_cases hil : laneOf rev (2 ^ k) i < T
      · rw [if_pos hil, if_pos (by omega)]
      · rw [if_neg hil, if_neg (by omega)]

theorem run_gpusort_single_eq_gpassFn {α : Type} (cmp : α → α → ℤ)
    (rev : Bool) {k p : ℕ} (n : ℕ) (hk1 : 1 ≤ k) (hkp : k ≤ p) (hp : p ≤ 31)
    (hn : n ≤ 2 ^ p) (res : ℕ → α) :
    run_gpusort_single cmp rev (2 ^ k) n (2 ^ p) res =
      gpassFn cmp rev (2 ^ k) n res := by
  have hh : 0 < (2 : ℕ) ^ (k - 1) := Nat.two_pow_pos (k - 1)
  have hu : (2 : ℕ) ^ k = 2 * 2 ^ (k - 1) := pow_two_split hk1
  funext i
  show (List.range (2 ^ p)).foldl (laneStep cmp rev (2 ^ k) n) res i =
    gpassFn cmp rev (2 ^ k) n res i
  rw [foldl_laneStep_eq_gpassFn cmp rev n hk1 hkp hp hn res (2 ^ p)
    le_rfl i]
  by_cases hil : laneOf rev (2 ^ k) i < 2 ^ p
  · rw [if_pos hil]
  · rw [if_neg hil]
    have hiN : ¬ i < 2 ^ p :=
      fun hi => hil (laneOf_lt_of_lt rev hu hh (pow_dvd_pow 2 hkp) hi)
    have hmax : ¬ max i (buddy rev (2 ^ k) i) < n := by
      have h1 := Nat.le_max_left i (buddy rev (2 ^ k) i)
      omega
    rw [gpassFn_apply, if_neg hmax]

/-! ## Sentinel padding: the guarded pass is the unguarded pass on the
padded state -/

theorem cmpOpt_comparator {α : Type} {cmp : α → α → ℤ}
    (hc : IsComparator cmp) : IsComparator (cmpOpt cmp) := by
  constructor
  · rintro (_ | x) (_ | y)
    · simp [cmpOpt]
    · show (1 : ℤ) = - (-1)
      norm_num
    · show (-1 : ℤ) = - 1
      norm_num
    · exact hc.1 x y
  · rintro (_ | x) (_ | y) (_ | z) <;> intro h1 h2 <;>
      first
        | exact le_refl 0
        | (exfalso; revert h1 h2; simp [cmpOpt]; omega)
        | skip
    all_goals simp [cmpOpt] at h1 h2 ⊢
    · exact hc.2 x y z h1 h2

theorem passFn_liftN {α : Type} (cmp : α → α → ℤ) (rev : Bool) {u h : ℕ}
    (hu : u = 2 * h) (hh : 0 < h) (n : ℕ) (f : ℕ → α) :
    passFn (cmpOpt cmp) rev u (liftN n f) =
      liftN n (gpassFn cmp rev u n f) := by
  funext i
  have hbb := (buddy_spec rev hu hh i).2.2
  have hLHS : passFn (cmpOpt cmp) rev u (liftN n f) i =
      if i < buddy rev u i then
        cexLo (cmpOpt cmp) (liftN n f i) (liftN n f (buddy rev u i))
      else cexHi (cmpOpt cmp) (liftN n f (buddy rev u i)) (liftN n f i) := rfl
  have hRHS : liftN n (gpassFn cmp rev u n f) i =
      if i < n then some (gpassFn cmp rev u n f i) else none := rfl
  rw [hLHS, hRHS, gpassFn_apply]
  set j := buddy rev u i with hj
  have hne : j ≠ i := hbb.2
  rcases Nat.lt_or_ge i j with hij | hij
  · rw [if_pos hij, if_pos hij]
    by_cases hin : i < n
    · rw [if_pos hin]
      by_cases hjn : j < n
      · rw [if_pos (show max i j < n by omega)]
        have e1 : liftN n f i = some (f i) := if_pos hin
        have e2 : liftN n f j = some (f j) := if_pos hjn
        rw [e1, e2]
        show cexLo (cmpOpt cmp) (some (f i)) (some (f j)) =
          some (cexLo cmp (f i) (f j))
        have ec : cmpOpt cmp (some (f i)) (some (f j)) = cmp (f i) (f j) := rfl
        unfold cexLo
        rw [ec]
        split <;> rfl
      · rw [if_neg (show ¬ max i j < n by omega)]
        have e1 : liftN n f i = some (f i) := if_pos hin
        have e2 : liftN n f j = none := if_neg (by omega)
        rw [e1, e2]
        show cexLo (cmpOpt cmp) (some (f i)) none = some (f i)
        unfold cexLo
        rw [show cmpOpt cmp (some (f i)) none = -1 from rfl,
          if_neg (by norm_num)]
    · rw [if_neg hin]
      have e1 : liftN n f i = none := if_neg (by omega)
      have e2 : liftN n f j = none := if_neg (by omega)
      rw [e1, e2]
      show cexLo (cmpOpt cmp) none none = none
      unfold cexLo
      rw [show cmpOpt cmp (none : Option α) none = 0 from rfl,
        if_neg (by norm_num)]
  · have hji : j < i := by omega
    rw [if_neg (show ¬ i < j by omega), if_neg (show ¬ i < j by omega)]
    by_cases hin : i < n
    · have hjn : j < n := by omega
      rw [if_pos hin, if_pos (show max i j < n by omega)]
      have e1 : liftN n f i = some (f i) := if_pos hin
      have e2 : liftN n f j = some (f j) := if_pos hjn
      rw [e1, e2]
      show cexHi (cmpOpt cmp) (some (f j)) (some (f i)) =
        some (cexHi cmp (f j) (f i))
      have ec : cmpOpt cmp (some (f j)) (some (f i)) = cmp (f j) (f i) := rfl
      unfold cexHi
      rw [ec]
      split <;> rfl
    · rw [if_neg hin]
      have e1 : liftN n f i = none := if_neg (by omega)
      rw [e1]
      show cexHi (cmpOpt cmp) (liftN n f j) none = none
      have hc2 : ¬ (0 : ℤ) < cmpOpt cmp (liftN n f j) none := by
        cases liftN n f j <;> simp [cmpOpt]
      unfold cexHi
      rw [if_neg hc2]

theorem execPasses_liftN {α : Type} (cmp : α → α → ℤ) {p : ℕ} (n : ℕ)
    (hp : p ≤ 31) (hn : n ≤ 2 ^ p) :
    ∀ (ps : List (Bool × ℕ)),
      (∀ pr ∈ ps, ∃ k, 1 ≤ k ∧ k ≤ p ∧ pr.2 = 2 ^ k) → ∀ f : ℕ → α,
      execPasses (cmpOpt cmp) ps (liftN n f) =
        liftN n (ps.foldl
          (fun g pr => run_gpusort_single cmp pr.1 pr.2 n (2 ^ p) g) f)
  | [], _, f => rfl
  | pr :: ps, hps, f => by
    obtain ⟨k, hk1, hkp, hpr⟩ := hps pr (List.mem_cons_self pr ps)
    have hh : 0 < (2 : ℕ) ^ (k - 1) := Nat.two_pow_pos (k - 1)
    have hu : (2 : ℕ) ^ k = 2 * 2 ^ (k - 1) := pow_two_split hk1
    have hstep : execPasses (cmpOpt cmp) (pr :: ps) (liftN n f) =
        execPasses (cmpOpt cmp) ps
          (passFn (cmpOpt cmp) pr.1 pr.2 (liftN n f)) := by
      simp [execPasses]
    have hstep2 : (pr :: ps).foldl
        (fun g q => run_gpusort_single cmp q.1 q.2 n (2 ^ p) g) f =
        ps.foldl (fun g q => run_gpusort_single cmp q.1 q.2 n (2 ^ p) g)
          (run_gpusort_single cmp pr.1 pr.2 n (2 ^ p) f) := by
      simp
    rw [hstep, hstep2, hpr, passFn_liftN cmp pr.1 hu hh n f,
      run_gpusort_single_eq_gpassFn cmp pr.1 n hk1 hkp hp hn f]
    exact execPasses_liftN cmp n hp hn ps
      (fun q hq => hps q (List.mem_cons_of_mem pr hq))
      (gpassFn cmp pr.1 (2 ^ k) n f)

theorem bitonicSchedule_units {p : ℕ} :
    ∀ pr ∈ bitonicSchedule p, ∃ k, 1 ≤ k ∧ k ≤ p ∧ pr.2 = 2 ^ k := by
  intro pr hpr
  unfold bitonicSchedule at hpr
  rw [List.mem_flatten] at hpr
  obtain ⟨l, hl, hprl⟩ := hpr
  rw [List.mem_map] at hl
  obtain ⟨s, hs, rfl⟩ := hl
  have hsp : s < p := List.mem_range.mp hs
  rcases List.mem_cons.mp hprl with rfl | htail
  · exact ⟨s + 1, by omega, by omega, rfl⟩
  · unfold mergeNet at htail
    rw [List.mem_map] at htail
    obtain ⟨j, hj, rfl⟩ := htail
    have hjs : j < s := List.mem_range.mp (List.mem_reverse.mp hj)
    exact ⟨j + 1, by omega, by omega, rfl⟩

/-! ## Zero-one reduction: monotone Bool maps commute with the network -/

theorem gmap_cexLo {α : Type} {cmp : α → α → ℤ} (hc : IsComparator cmp)
    (gmap : α → Bool)
    (hmono : ∀ x y, cmp x y ≤ 0 → gmap x = true → gmap y = true) (x y : α) :
    gmap (cexLo cmp x y) = cexLo cmpBool (gmap x) (gmap y) := by
  unfold cexLo
  by_cases hxy : 0 < cmp x y
  · rw [if_pos hxy]
    have hyx : cmp y x ≤ 0 := by have h1 := hc.1 x y; omega
    have himp := hmono y x hyx
    cases hgx : gmap x <;> cases hgy : gmap y
    · decide
    · exfalso; rw [himp hgy] at hgx; exact absurd hgx (by decide)
    · decide
    · decide
  · rw [if_neg hxy]
    have himp := hmono x y (by omega)
    cases hgx : gmap x <;> cases hgy : gmap y
    · decide
    · decide
    · exfalso; rw [himp hgx] at hgy; exact absurd hgy (by decide)
    · decide

theorem gmap_cexHi {α : Type} {cmp : α → α → ℤ} (hc : IsComparator cmp)
    (gmap : α → Bool)
    (hmono : ∀ x y, cmp x y ≤ 0 → gmap x = true → gmap y = true) (x y : α) :
    gmap (cexHi cmp x y) = cexHi cmpBool (gmap x) (gmap y) := by
  unfold cexHi
  by_cases hxy : 0 < cmp x y
  · rw [if_pos hxy]
    have hyx : cmp y x ≤ 0 := by have h1 := hc.1 x y; omega
    have himp := hmono y x hyx
    cases hgx : gmap x <;> cases hgy : gmap y
    · decide
    · exfalso; rw [himp hgy] at hgx; exact absurd hgx (by decide)
    · decide
    · decide
  · rw [if_neg hxy]
    have himp := hmono x y (by omega)
    cases hgx : gmap x <;> cases hgy : gmap y
    · decide
    · decide
    · exfalso; rw [himp hgx] at hgy; exact absurd hgy (by decide)
    · decide

theorem gmap_passFn {α : Type} {cmp : α → α → ℤ} (hc : IsComparator cmp)
    (gmap : α → Bool)
    (hmono : ∀ x y, cmp x y ≤ 0 → gmap x = true → gmap y = true)
    (rev : Bool) (u : ℕ) (g : ℕ → α) :
    (fun i => gmap (passFn cmp rev u g i)) =
      passFn cmpBool rev u (fun i => gmap (g i)) := by
  funext i
  by_cases hb : i < buddy rev u i
  · have e1 : passFn cmp rev u g i = cexLo cmp (g i) (g (buddy rev u i)) := by
      unfold passFn; rw [if_pos hb]
    have e2 : passFn cmpBool rev u (fun i => gmap (g i)) i =
        cexLo cmpBool (gmap (g i)) (gmap (g (buddy rev u i))) := by
      unfold passFn; rw [if_pos hb]
    rw [e1, e2]
    exact gmap_cexLo hc gmap hmono _ _
  · have e1 : passFn cmp rev u g i = cexHi cmp (g (buddy rev u i)) (g i) := by
      unfold passFn; rw [if_neg hb]
    have e2 : passFn cmpBool rev u (fun i => gmap (g i)) i =
        cexHi cmpBool (gmap (g (buddy rev u i))) (gmap (g i)) := by
      unfold passFn; rw [if_neg hb]
    rw [e1, e2]
    exact gmap_cexHi hc gmap hmono _ _

theorem execPasses_cons {α : Type} (cmp : α → α → ℤ) (pr : Bool × ℕ)
    (ps : List (Bool × ℕ)) (g : ℕ → α) :
    execPasses cmp (pr :: ps) g =
      execPasses cmp ps (passFn cmp pr.1 pr.2 g) := rfl

theorem execPasses_append {α : Type} (cmp : α → α → ℤ)
    (A B : List (Bool × ℕ)) (g : ℕ → α) :
    execPasses cmp (A ++ B) g = execPasses cmp B (execPasses cmp A g) := by
  simp [execPasses, List.foldl_append]

theorem gmap_execPasses {α : Type} {cmp : α → α → ℤ} (hc : IsComparator cmp)
    (gmap : α → Bool)
    (hmono : ∀ x y, cmp x y ≤ 0 → gmap x = true → gmap y = true) :
    ∀ (ps : List (Bool × ℕ)) (g : ℕ → α),
      (fun i => gmap (execPasses cmp ps g i)) =
        execPasses cmpBool ps (fun i => gmap (g i))
  | [], g => rfl
  | pr :: ps, g => by
    rw [execPasses_cons, execPasses_cons,
      gmap_execPasses hc gmap hmono ps (passFn cmp pr.1 pr.2 g),
      gmap_passFn hc gmap hmono pr.1 pr.2 g]

/-! ## Bool evaluation of a pass on aligned blocks -/

theorem cexLo_bool : ∀ x y : Bool, cexLo cmpBool x y = (x && y) := by decide

theorem cexHi_bool : ∀ x y : Bool, cexHi cmpBool x y = (x || y) := by decide

theorem block_pos {u off r : ℕ} (hoff : off % u = 0) (hu : 0 < u)
    (hr : r < u) : (off + r) / u = off / u ∧ (off + r) % u = r := by
  have hdvd : u ∣ off := Nat.dvd_of_mod_eq_zero hoff
  have hoffu : off / u * u = off := Nat.div_mul_cancel hdvd
  constructor
  · rw [show off + r = off / u * u + r by omega]; exact addmul_div hr
  · rw [show off + r = off / u * u + r by omega]; exact addmul_mod hr

theorem buddy_rev_block {u h off r : ℕ} (hu : u = 2 * h) (hh : 0 < h)
    (hoff : off % u = 0) (hr : r < u) :
    buddy true u (off + r) = off + (u - 1 - r) := by
  have hb := block_pos hoff (by omega) hr
  have he : buddy true u (off + r) =
      (off + r) / u * u + (u - 1 - (off + r) % u) := rfl
  rw [he, hb.1, hb.2, Nat.div_mul_cancel (Nat.dvd_of_mod_eq_zero hoff)]

theorem buddy_f_block_lo {u h off r : ℕ} (hu : u = 2 * h) (hh : 0 < h)
    (hoff : off % u = 0) (hr : r < h) :
    buddy false u (off + r) = off + r + h := by
  have hb := block_pos hoff (by omega) (show r < u by omega)
  show (if (off + r) % u < u / 2 then off + r + u / 2 else off + r - u / 2) =
    off + r + h
  rw [hb.2, if_pos (by omega)]
  omega

theorem buddy_f_block_hi {u h off r : ℕ} (hu : u = 2 * h) (hh : 0 < h)
    (hoff : off % u = 0) (hr1 : h ≤ r) (hr2 : r < u) :
    buddy false u (off + r) = off + r - h := by
  have hb := block_pos hoff (by omega) hr2
  show (if (off + r) % u < u / 2 then off + r + u / 2 else off + r - u / 2) =
    off + r - h
  rw [hb.2, if_neg (by omega)]
  omega

theorem revpass_lo {u h off r : ℕ} (hu : u = 2 * h) (hh : 0 < h)
    (hoff : off % u = 0) (hr : r < h) (g : ℕ → Bool) :
    passFn cmpBool true u g (off + r) =
      (g (off + r) && g (off + (u - 1 - r))) := by
  have hb := block_pos hoff (by omega) (show r < u by omega)
  rw [passFn_eval_lo cmpBool true hu hh (by rw [hb.2]; omega) g, cexLo_bool,
    buddy_rev_block hu hh hoff (by omega)]

theorem revpass_hi {u h off r : ℕ} (hu : u = 2 * h) (hh : 0 < h)
    (hoff : off % u = 0) (hr1 : h ≤ r) (hr2 : r < u) (g : ℕ → Bool) :
    passFn cmpBool true u g (off + r) =
      (g (off + (u - 1 - r)) || g (off + r)) := by
  have hb := block_pos hoff (by omega) hr2
  rw [passFn_eval_hi cmpBool true hu hh (by rw [hb.2]; omega) g, cexHi_bool,
    buddy_rev_block hu hh hoff (by omega)]

theorem fpass_lo {u h off r : ℕ} (hu : u = 2 * h) (hh : 0 < h)
    (hoff : off % u = 0) (hr : r < h) (g : ℕ → Bool) :
    passFn cmpBool false u g (off + r) =
      (g (off + r) && g (off + r + h)) := by
  have hb := block_pos hoff (by omega) (show r < u by omega)
  rw [passFn_eval_lo cmpBool false hu hh (by rw [hb.2]; omega) g, cexLo_bool,
    buddy_f_block_lo hu hh hoff hr]

theorem fpass_hi {u h off r : ℕ} (hu : u = 2 * h) (hh : 0 < h)
    (hoff : off % u = 0) (hr1 : h ≤ r) (hr2 : r < u) (g : ℕ → Bool) :
    passFn cmpBool false u g (off + r) =
      (g (off + r - h) || g (off + r)) := by
  have hb := block_pos hoff (by omega) hr2
  rw [passFn_eval_hi cmpBool false hu hh (by rw [hb.2]; omega) g, cexHi_bool,
    buddy_f_block_hi hu hh hoff hr1 hr2]

/-! ## The reversing pass on two sorted halves: bitonic halves and the
cross property -/

theorem revpass_noalt_lo {m off : ℕ} (hm : 0 < m) (hoff : off % (2 * m) = 0)
    (g : ℕ → Bool) (hlo : SortedB g off m) (hhi : SortedB g (off + m) m) :
    NoAlt4 (passFn cmpBool true (2 * m) g) off m := by
  have hval : ∀ x, off ≤ x → x < off + m →
      passFn cmpBool true (2 * m) g x =
        (g x && g (off + (2 * m - 1 - (x - off)))) := by
    intro x hx1 hx2
    obtain ⟨r, rfl⟩ : ∃ r, x = off + r := ⟨x - off, by omega⟩
    rw [revpass_lo rfl hm hoff (by omega) g]
    have he : off + r - off = r := by omega
    rw [he]
  have hTFT : ∀ a b c, off ≤ a → a < b → b < c → c < off + m →
      passFn cmpBool true (2 * m) g a = true →
      passFn cmpBool true (2 * m) g c = true →
      passFn cmpBool true (2 * m) g b = true := by
    intro a b c ha hab hbc hc hPa hPc
    rw [hval a ha (by omega)] at hPa
    rw [hval c (by omega) hc] at hPc
    rw [hval b (by omega) (by omega)]
    rw [Bool.and_eq_true] at hPa hPc ⊢
    refine ⟨hlo a b ha (Nat.le_of_lt hab) (by omega) hPa.1, ?_⟩
    exact hhi (off + (2 * m - 1 - (c - off))) (off + (2 * m - 1 - (b - off)))
      (by omega) (by omega) (by omega) hPc.2
  intro i j k l hi hij hjk hkl hl heq1 heq2
  cases hPi : passFn cmpBool true (2 * m) g i <;>
    cases hPj : passFn cmpBool true (2 * m) g j
  · rfl
  · exfalso
    have hPl : passFn cmpBool true (2 * m) g l = true := heq2 ▸ hPj
    have hPk : passFn cmpBool true (2 * m) g k = true :=
      hTFT j k l (by omega) hjk hkl (by omega) hPj hPl
    have hPk' : passFn cmpBool true (2 * m) g k = false := heq1 ▸ hPi
    rw [hPk] at hPk'
    exact absurd hPk' (by decide)
  · exfalso
    have hPk : passFn cmpBool true (2 * m) g k = true := heq1 ▸ hPi
    have hPj' : passFn cmpBool true (2 * m) g j = true :=
      hTFT i j k hi hij hjk (by omega) hPi hPk
    rw [hPj] at hPj'
    exact absurd hPj' (by decide)
  · rfl

theorem revpass_noalt_hi {m off : ℕ} (hm : 0 < m) (hoff : off % (2 * m) = 0)
    (g : ℕ → Bool) (hlo : SortedB g off m) (hhi : SortedB g (off + m) m) :
    NoAlt4 (passFn cmpBool true (2 * m) g) (off + m) m := by
  have hval : ∀ y, off + m ≤ y → y < off + m + m →
      passFn cmpBool true (2 * m) g y =
        (g (off + (2 * m - 1 - (y - off))) || g y) := by
    intro y hy1 hy2
    obtain ⟨r, rfl⟩ : ∃ r, y = off + r := ⟨y - off, by omega⟩
    rw [revpass_hi rfl hm hoff (by omega) (by omega) g]
    have he : off + r - off = r := by omega
    rw [he]
  have hFTF : ∀ a b c, off + m ≤ a → a < b → b < c → c < off + m + m →
      passFn cmpBool true (2 * m) g a = false →
      passFn cmpBool true (2 * m) g c = false →
      passFn cmpBool true (2 * m) g b = false := by
    intro a b c ha hab hbc hc hPa hPc
    rw [hval a ha (by omega)] at hPa
    rw [hval c (by omega) hc] at hPc
    rw [hval b (by omega) (by omega)]
    rw [Bool.or_eq_false_iff] at hPa hPc ⊢
    constructor
    · cases hgb : g (off + (2 * m - 1 - (b - off)))
      · rfl
      · exfalso
        have := hlo (off + (2 * m - 1 - (b - off)))
          (off + (2 * m - 1 - (a - off))) (by omega) (by omega) (by omega) hgb
        rw [hPa.1] at this
        exact absurd this (by decide)
    · cases hgb : g b
      · rfl
      · exfalso
        have := hhi b c (by omega) (Nat.le_of_lt hbc) (by omega) hgb
        rw [hPc.2] at this
        exact absurd this (by decide)
  intro i j k l hi hij hjk hkl hl heq1 heq2
  cases hPi : passFn cmpBool true (2 * m) g i <;>
    cases hPj : passFn cmpBool true (2 * m) g j
  · rfl
  · exfalso
    have hPk : passFn cmpBool true (2 * m) g k = false := heq1 ▸ hPi
    have hPj' : passFn cmpBool true (2 * m) g j = false :=
      hFTF i j k hi hij hjk (by omega) hPi hPk
    rw [hPj] at hPj'
    exact absurd hPj' (by decide)
  · exfalso
    have hPl : passFn cmpBool true (2 * m) g l = false := heq2 ▸ hPj
    have hPk : passFn cmpBool true (2 * m) g k = false :=
      hFTF j k l (by omega) hjk hkl (by omega) hPj hPl
    have hPk' : passFn cmpBool true (2 * m) g k = true := heq1 ▸ hPi
    rw [hPk] at hPk'
    exact absurd hPk' (by decide)
  · rfl

theorem revpass_cross {m off : ℕ} (hm : 0 < m) (hoff : off % (2 * m) = 0)
    (g : ℕ → Bool) (hlo : SortedB g off m) (hhi : SortedB g (off + m) m) :
    CrossB (passFn cmpBool true (2 * m) g) off m := by
  intro x hx1 hx2 hPx y hy1 hy2
  obtain ⟨rx, rfl⟩ : ∃ r, x = off + r := ⟨x - off, by omega⟩
  obtain ⟨ry, rfl⟩ : ∃ r, y = off + r := ⟨y - off, by omega⟩
  rw [revpass_lo rfl hm hoff (by omega) g, Bool.and_eq_true] at hPx
  rw [revpass_hi rfl hm hoff (by omega) (by omega) g, Bool.or_eq_true]
  by_cases hcmp : rx ≤ 2 * m - 1 - ry
  · left
    exact hlo (off + rx) (off + (2 * m - 1 - ry)) (by omega) (by omega)
      (by omega) hPx.1
  · right
    exact hhi (off + (2 * m - 1 - rx)) (off + ry) (by omega) (by omega)
      (by omega) hPx.2

/-! ## The half cleaner on a bitonic block -/

theorem hc_noalt_lo {w off : ℕ} (hw : 0 < w) (hoff : off % (2 * w) = 0)
    (g : ℕ → Bool) (hbit : NoAlt4 g off (2 * w)) :
    NoAlt4 (passFn cmpBool false (2 * w) g) off w := by
  have hval : ∀ x, off ≤ x → x < off + w →
      passFn cmpBool false (2 * w) g x = (g x && g (x + w)) := by
    intro x hx1 hx2
    obtain ⟨r, rfl⟩ : ∃ r, x = off + r := ⟨x - off, by omega⟩
    rw [fpass_lo rfl hw hoff (by omega) g]
  intro i j k l hi hij hjk hkl hl heq1 heq2
  cases hPi : passFn cmpBool false (2 * w) g i <;>
    cases hPj : passFn cmpBool false (2 * w) g j
  · rfl
  · -- P i = false, P j = true
    exfalso
    have hPk : passFn cmpBool false (2 * w) g k = false := heq1 ▸ hPi
    have hPl : passFn cmpBool false (2 * w) g l = true := heq2 ▸ hPj
    rw [hval i hi (by omega), Bool.and_eq_false_iff] at hPi
    rw [hval j (by omega) (by omega), Bool.and_eq_true] at hPj
    rw [hval k (by omega) (by omega), Bool.and_eq_false_iff] at hPk
    rw [hval l (by omega) hl, Bool.and_eq_true] at hPl
    rcases hPi with hgi | hgiw <;> rcases hPk with hgk | hgkw
    · have h4 := hbit i j k l hi hij hjk hkl (by omega)
        (by rw [hgi, hgk]) (by rw [hPj.1, hPl.1])
      rw [hgi, hPj.1] at h4
      exact absurd h4 (by decide)
    · have h4 := hbit i j (k + w) (l + w) hi hij (by omega) (by omega)
        (by omega) (by rw [hgi, hgkw]) (by rw [hPj.1, hPl.2])
      rw [hgi, hPj.1] at h4
      exact absurd h4 (by decide)
    · have h4 := hbit k l (i + w) (j + w) (by omega) hkl (by omega)
        (by omega) (by omega) (by rw [hgk, hgiw]) (by rw [hPl.1, hPj.2])
      rw [hgk, hPl.1] at h4
      exact absurd h4 (by decide)
    · have h4 := hbit l (i + w) (j + w) (k + w) (by omega) (by omega)
        (by omega) (by omega) (by omega) (by rw [hPl.1, hPj.2])
        (by rw [hgiw, hgkw])
      rw [hPl.1, hgiw] at h4
      exact absurd h4 (by decide)
  · -- P i = true, P j = false
    exfalso
    have hPk : passFn cmpBool false (2 * w) g k = true := heq1 ▸ hPi
    have hPl : passFn cmpBool false (2 * w) g l = false := heq2 ▸ hPj
    rw [hval i hi (by omega), Bool.and_eq_true] at hPi
    rw [hval j (by omega) (by omega), Bool.and_eq_false_iff] at hPj
    rw [hval k (by omega) (by omega), Bool.and_eq_true] at hPk
    rw [hval l (by omega) hl, Bool.and_eq_false_iff] at hPl
    rcases hPj with hgj | hgjw <;> rcases hPl with hgl | hglw
    · have h4 := hbit i j k l hi hij hjk hkl (by omega)
        (by rw [hPi.1, hPk.1]) (by rw [hgj, hgl])
      rw [hPi.1, hgj] at h4
      exact absurd h4 (by decide)
    · have h4 := hbit i j k (l + w) hi hij hjk (by omega) (by omega)
        (by rw [hPi.1, hPk.1]) (by rw [hgj, hglw])
      rw [hPi.1, hgj] at h4
      exact absurd h4 (by decide)
    · have h4 := hbit k l (i + w) (j + w) (by omega) hkl (by omega)
        (by omega) (by omega) (by rw [hPk.1, hPi.2]) (by rw [hgl, hgjw])
      rw [hPk.1, hgl] at h4
      exact absurd h4 (by decide)
    · have h4 := hbit i (j + w) (k + w) (l + w) hi (by omega) (by omega)
        (by omega) (by omega) (by rw [hPi.1, hPk.2]) (by rw [hgjw, hglw])
      rw [hPi.1, hgjw] at h4
      exact absurd h4 (by decide)
  · rfl

theorem hc_noalt_hi {w off : ℕ} (hw : 0 < w) (hoff : off % (2 * w) = 0)
    (g : ℕ → Bool) (hbit : NoAlt4 g off (2 * w)) :
    NoAlt4 (passFn cmpBool false (2 * w) g) (off + w) w := by
  have hval : ∀ y, off + w ≤ y → y < off + w + w →
      passFn cmpBool false (2 * w) g y = (g (y - w) || g y) := by
    intro y hy1 hy2
    obtain ⟨r, rfl⟩ : ∃ r, y = off + r := ⟨y - off, by omega⟩
    rw [fpass_hi rfl hw hoff (by omega) (by omega) g]
  intro i j k l hi hij hjk hkl hl heq1 heq2
  cases hPi : passFn cmpBool false (2 * w) g i <;>
    cases hPj : passFn cmpBool false (2 * w) g j
  · rfl
  · -- P i = false, P j = true
    exfalso
    have hPk : passFn cmpBool false (2 * w) g k = false := heq1 ▸ hPi
    have hPl : passFn cmpBool false (2 * w) g l = true := heq2 ▸ hPj
    rw [hval i hi (by omega), Bool.or_eq_false_iff] at hPi
    rw [hval j (by omega) (by omega), Bool.or_eq_true] at hPj
    rw [hval k (by omega) (by omega), Bool.or_eq_false_iff] at hPk
    rw [hval l (by omega) hl, Bool.or_eq_true] at hPl
    rcases hPj with hgj | hgj <;> rcases hPl with hgl | hgl
    · have h4 := hbit (i - w) (j - w) (k - w) (l - w) (by omega) (by omega)
        (by omega) (by omega) (by omega) (by rw [hPi.1, hPk.1])
        (by rw [hgj, hgl])
      rw [hPi.1, hgj] at h4
      exact absurd h4 (by decide)
    · have h4 := hbit (i - w) (j - w) (k - w) l (by omega) (by omega)
        (by omega) (by omega) (by omega) (by rw [hPi.1, hPk.1])
        (by rw [hgj, hgl])
      rw [hPi.1, hgj] at h4
      exact absurd h4 (by decide)
    · have h4 := hbit (l - w) i j k (by omega) (by omega) hij hjk
        (by omega) (by rw [hgl, hgj]) (by rw [hPi.2, hPk.2])
      rw [hgl, hPi.2] at h4
      exact absurd h4 (by decide)
    · have h4 := hbit i j k l (by omega) hij hjk hkl (by omega)
        (by rw [hPi.2, hPk.2]) (by rw [hgj, hgl])
      rw [hPi.2, hgj] at h4
      exact absurd h4 (by decide)
  · -- P i = true, P j = false
    exfalso
    have hPk : passFn cmpBool false (2 * w) g k = true := heq1 ▸ hPi
    have hPl : passFn cmpBool false (2 * w) g l = false := heq2 ▸ hPj
    rw [hval i hi (by omega), Bool.or_eq_true] at hPi
    rw [hval j (by omega) (by omega), Bool.or_eq_false_iff] at hPj
    rw [hval k (by omega) (by omega), Bool.or_eq_true] at hPk
    rw [hval l (by omega) hl, Bool.or_eq_false_iff] at hPl
    rcases hPi with hgi | hgi <;> rcases hPk with hgk | hgk
    · have h4 := hbit (i - w) (j - w) (k - w) (l - w) (by omega) (by omega)
        (by omega) (by omega) (by omega) (by rw [hgi, hgk])
        (by rw [hPj.1, hPl.1])
      rw [hgi, hPj.1] at h4
      exact absurd h4 (by decide)
    · have h4 := hbit (i - w) (j - w) k l (by omega) (by omega) (by omega)
        hkl (by omega) (by rw [hgi, hgk]) (by rw [hPj.1, hPl.2])
      rw [hgi, hPj.1] at h4
      exact absurd h4 (by decide)
    · have h4 := hbit (j - w) (k - w) (l - w) i (by omega) (by omega)
        (by omega) (by omega) (by omega) (by rw [hPj.1, hPl.1])
        (by rw [hgk, hgi])
      rw [hPj.1, hgk] at h4
      exact absurd h4 (by decide)
    · have h4 := hbit (j - w) i j k (by omega) (by omega) hij hjk
        (by omega) (by rw [hPj.1, hPj.2]) (by rw [hgi, hgk])
      rw [hPj.1, hgi] at h4
      exact absurd h4 (by decide)
  · rfl

theorem hc_cross {w off : ℕ} (hw : 0 < w) (hoff : off % (2 * w) = 0)
    (g : ℕ → Bool) (hbit : NoAlt4 g off (2 * w)) :
    CrossB (passFn cmpBool false (2 * w) g) off w := by
  have hval : ∀ x, off ≤ x → x < off + w →
      passFn cmpBool false (2 * w) g x = (g x && g (x + w)) := by
    intro x hx1 hx2
    obtain ⟨r, rfl⟩ : ∃ r, x = off + r := ⟨x - off, by omega⟩
    rw [fpass_lo rfl hw hoff (by omega) g]
  have hval2 : ∀ y, off + w ≤ y → y < off + 2 * w →
      passFn cmpBool false (2 * w) g y = (g (y - w) || g y) := by
    intro y hy1 hy2
    obtain ⟨r, rfl⟩ : ∃ r, y = off + r := ⟨y - off, by omega⟩
    rw [fpass_hi rfl hw hoff (by omega) (by omega) g]
  intro x hx1 hx2 hPx y hy1 hy2
  rw [hval x hx1 hx2, Bool.and_eq_true] at hPx
  by_contra hPy
  rw [Bool.not_eq_true, hval2 y hy1 hy2, Bool.or_eq_false_iff] at hPy
  rcases Nat.lt_trichotomy x (y - w) with hlt | heq | hgt
  · have h4 := hbit x (y - w) (x + w) y hx1 hlt (by omega) (by omega)
      (by omega) (by rw [hPx.1, hPx.2]) (by rw [hPy.1, hPy.2])
    rw [hPx.1, hPy.1] at h4
    exact absurd h4 (by decide)
  · have hcx := hPy.1
    rw [← heq] at hcx
    rw [hPx.1] at hcx
    exact absurd hcx (by decide)
  · have h4 := hbit (y - w) x y (x + w) (by omega) hgt (by omega)
      (by omega) (by omega) (by rw [hPy.1, hPy.2]) (by rw [hPx.1, hPx.2])
    rw [hPy.1, hPx.1] at h4
    exact absurd h4 (by decide)

/-! ## Cross and sortedness bookkeeping -/

theorem buddy_in_block {u h : ℕ} (rev : Bool) (hu : u = 2 * h) (hh : 0 < h)
    {a b i : ℕ} (ha : u ∣ a) (hb : u ∣ b) (hia : a ≤ i) (hib : i < b) :
    a ≤ buddy rev u i ∧ buddy rev u i < b := by
  have hupos : 0 < u := by omega
  have hdiv : buddy rev u i / u = i / u := (buddy_spec rev hu hh i).1
  have hmod : buddy rev u i % u < u := Nat.mod_lt _ hupos
  have hdm : buddy rev u i / u * u + buddy rev u i % u = buddy rev u i := by
    have h5 := Nat.div_add_mod (buddy rev u i) u
    rw [Nat.mul_comm] at h5
    exact h5
  rw [hdiv] at hdm
  have haa : a / u * u = a := Nat.div_mul_cancel ha
  have hbb : b / u * u = b := Nat.div_mul_cancel hb
  have h1 : a / u ≤ i / u := Nat.div_le_div_right hia
  have h2 : i / u < b / u := Nat.div_lt_div_of_lt_of_dvd hb hib
  have h3 : a / u * u ≤ i / u * u := Nat.mul_le_mul_right u h1
  have h4 : (i / u + 1) * u ≤ b / u * u := Nat.mul_le_mul_right u (by omega)
  have h5 : (i / u + 1) * u = i / u * u + u := by ring
  omega

theorem crossB_pass_preserved {u h m off : ℕ} (hu : u = 2 * h) (hh : 0 < h)
    (hum : u ∣ m) (hoff : u ∣ off) (g : ℕ → Bool) (hC : CrossB g off m) :
    CrossB (passFn cmpBool false u g) off m := by
  have hom : u ∣ off + m := Nat.dvd_add hoff hum
  have hom2 : u ∣ off + 2 * m := by
    have : off + 2 * m = off + m + m := by omega
    rw [this]
    exact Nat.dvd_add hom hum
  intro i hi1 hi2 hPi j hj1 hj2
  have hbi := buddy_in_block false hu hh hoff hom hi1 hi2
  have hbj := buddy_in_block false hu hh hom hom2 hj1 hj2
  -- a true slot in the lower block
  have hz : ∃ z, off ≤ z ∧ z < off + m ∧ g z = true := by
    by_cases hic : i % u < h
    · rw [passFn_eval_lo cmpBool false hu hh hic g, cexLo_bool,
        Bool.and_eq_true] at hPi
      exact ⟨i, hi1, hi2, hPi.1⟩
    · rw [passFn_eval_hi cmpBool false hu hh hic g, cexHi_bool,
        Bool.or_eq_true] at hPi
      rcases hPi with hb | hb
      · exact ⟨buddy false u i, hbi.1, hbi.2, hb⟩
      · exact ⟨i, hi1, hi2, hb⟩
  obtain ⟨z, hz1, hz2, hz3⟩ := hz
  have hall : ∀ y, off + m ≤ y → y < off + 2 * m → g y = true :=
    fun y hy1 hy2 => hC z hz1 hz2 hz3 y hy1 hy2
  by_cases hjc : j % u < h
  · rw [passFn_eval_lo cmpBool false hu hh hjc g, cexLo_bool,
      hall j hj1 hj2, hall (buddy false u j) hbj.1 hbj.2]
    rfl
  · rw [passFn_eval_hi cmpBool false hu hh hjc g, cexHi_bool,
      hall j hj1 hj2, hall (buddy false u j) hbj.1 hbj.2]
    rfl

theorem sortedB_glue {g : ℕ → Bool} {off m : ℕ} (h1 : SortedB g off m)
    (h2 : SortedB g (off + m) m) (hc : CrossB g off m) :
    SortedB g off (2 * m) := by
  intro i j hi hij hj hgi
  by_cases hjm : j < off + m
  · exact h1 i j hi hij hjm hgi
  · by_cases him : i < off + m
    · exact hc i hi him hgi j (by omega) (by omega)
    · exact h2 i j (by omega) hij (by omega) hgi

/-! ## The bitonic merge net sorts a bitonic block -/

theorem mergeNet_succ (t : ℕ) :
    mergeNet (t + 1) = (false, 2 ^ (t + 1)) :: mergeNet t := by
  unfold mergeNet
  rw [List.range_succ, List.reverse_append]
  simp

theorem mergeNet_cond {t m off : ℕ} (hm : m = 2 ^ t) (hoff : 2 ^ t ∣ off) :
    ∀ pr ∈ mergeNet t, pr.1 = false ∧
      ∃ a, 0 < a ∧ pr.2 = 2 * a ∧ pr.2 ∣ m ∧ pr.2 ∣ off := by
  intro pr hpr
  unfold mergeNet at hpr
  rw [List.mem_map] at hpr
  obtain ⟨j, hj, rfl⟩ := hpr
  have hjt : j < t := List.mem_range.mp (List.mem_reverse.mp hj)
  refine ⟨rfl, 2 ^ j, Nat.two_pow_pos j, ?_, ?_, ?_⟩
  · show (2 : ℕ) ^ (j + 1) = 2 * 2 ^ j
    rw [pow_succ]; ring
  · show (2 : ℕ) ^ (j + 1) ∣ m
    rw [hm]; exact pow_dvd_pow 2 (by omega)
  · exact dvd_trans (pow_dvd_pow 2 (by omega)) hoff

theorem crossB_exec_preserved {m off : ℕ} :
    ∀ (ps : List (Bool × ℕ)),
      (∀ pr ∈ ps, pr.1 = false ∧
        ∃ a, 0 < a ∧ pr.2 = 2 * a ∧ pr.2 ∣ m ∧ pr.2 ∣ off) →
      ∀ g : ℕ → Bool, CrossB g off m →
        CrossB (execPasses cmpBool ps g) off m
  | [], _, g, hC => hC
  | pr :: ps, hps, g, hC => by
    obtain ⟨hfalse, a, ha, h2a, hdm, hdo⟩ := hps pr (List.mem_cons_self pr ps)
    rw [execPasses_cons]
    refine crossB_exec_preserved ps
      (fun q hq => hps q (List.mem_cons_of_mem pr hq)) _ ?_
    rw [hfalse]
    exact crossB_pass_preserved h2a ha hdm hdo g hC

theorem mergeNet_sorts :
    ∀ (t : ℕ) (g : ℕ → Bool) (off : ℕ), 2 ^ t ∣ off →
      NoAlt4 g off (2 ^ t) →
      SortedB (execPasses cmpBool (mergeNet t) g) off (2 ^ t)
  | 0, g, off, _, _ => by
    intro i j hi hij hj hgi
    have h1 : (2 : ℕ) ^ 0 = 1 := rfl
    have : i = j := by omega
    subst this
    exact hgi
  | t + 1, g, off, hdvd, hbit => by
    rw [mergeNet_succ, execPasses_cons]
    dsimp only
    have hw : 0 < (2 : ℕ) ^ t := Nat.two_pow_pos t
    have h2t : (2 : ℕ) ^ (t + 1) = 2 * 2 ^ t := by rw [pow_succ]; ring
    have hoffmod : off % (2 * 2 ^ t) = 0 := by
      rw [← h2t]; exact Nat.mod_eq_zero_of_dvd hdvd
    have hbit' : NoAlt4 g off (2 * 2 ^ t) := h2t ▸ hbit
    have hpass : passFn cmpBool false (2 ^ (t + 1)) g =
        passFn cmpBool false (2 * 2 ^ t) g := by rw [h2t]
    have hdvd_t : (2 : ℕ) ^ t ∣ off :=
      dvd_trans (pow_dvd_pow 2 (by omega)) hdvd
    have hdvd_t2 : (2 : ℕ) ^ t ∣ off + 2 ^ t := Nat.dvd_add hdvd_t dvd_rfl
    have hb1 : NoAlt4 (passFn cmpBool false (2 ^ (t + 1)) g) off (2 ^ t) := by
      rw [hpass]; exact hc_noalt_lo hw hoffmod g hbit'
    have hb2 : NoAlt4 (passFn cmpBool false (2 ^ (t + 1)) g) (off + 2 ^ t)
        (2 ^ t) := by
      rw [hpass]; exact hc_noalt_hi hw hoffmod g hbit'
    have hcr : CrossB (passFn cmpBool false (2 ^ (t + 1)) g) off (2 ^ t) := by
      rw [hpass]; exact hc_cross hw hoffmod g hbit'
    have hS1 := mergeNet_sorts t (passFn cmpBool false (2 ^ (t + 1)) g) off
      hdvd_t hb1
    have hS2 := mergeNet_sorts t (passFn cmpBool false (2 ^ (t + 1)) g)
      (off + 2 ^ t) hdvd_t2 hb2
    have hCp := crossB_exec_preserved (mergeNet t) (mergeNet_cond rfl hdvd_t)
      (passFn cmpBool false (2 ^ (t + 1)) g) hcr
    have hglue := sortedB_glue hS1 hS2 hCp
    rw [← h2t] at hglue
    exact hglue

/-! ## The full schedule sorts every Bool state -/

theorem bitonicSchedule_succ (p : ℕ) :
    bitonicSchedule (p + 1) =
      bitonicSchedule p ++ ((true, 2 ^ (p + 1)) :: mergeNet p) := by
  unfold bitonicSchedule
  rw [List.range_succ, List.map_append, List.flatten_append]
  simp

theorem schedule_sorts_bool :
    ∀ (p : ℕ) (g : ℕ → Bool) (off : ℕ), 2 ^ p ∣ off →
      SortedB (execPasses cmpBool (bitonicSchedule p) g) off (2 ^ p)
  | 0, g, off, _ => by
    intro i j hi hij hj hgi
    have h1 : (2 : ℕ) ^ 0 = 1 := rfl
    have : i = j := by omega
    subst this
    exact hgi
  | p + 1, g, off, hdvd => by
    rw [bitonicSchedule_succ, execPasses_append, execPasses_cons]
    dsimp only
    have hw : 0 < (2 : ℕ) ^ p := Nat.two_pow_pos p
    have h2p : (2 : ℕ) ^ (p + 1) = 2 * 2 ^ p := by rw [pow_succ]; ring
    have hdvd_p : (2 : ℕ) ^ p ∣ off :=
      dvd_trans (pow_dvd_pow 2 (by omega)) hdvd
    have hdvd_p2 : (2 : ℕ) ^ p ∣ off + 2 ^ p := Nat.dvd_add hdvd_p dvd_rfl
    have hoffmod : off % (2 * 2 ^ p) = 0 := by
      rw [← h2p]; exact Nat.mod_eq_zero_of_dvd hdvd
    have hlo := schedule_sorts_bool p g off hdvd_p
    have hhi := schedule_sorts_bool p g (off + 2 ^ p) hdvd_p2
    have hpass : passFn cmpBool true (2 ^ (p + 1))
        (execPasses cmpBool (bitonicSchedule p) g) =
        passFn cmpBool true (2 * 2 ^ p)
          (execPasses cmpBool (bitonicSchedule p) g) := by rw [h2p]
    have hb1 : NoAlt4 (passFn cmpBool true (2 ^ (p + 1))
        (execPasses cmpBool (bitonicSchedule p) g)) off (2 ^ p) := by
      rw [hpass]; exact revpass_noalt_lo hw hoffmod _ hlo hhi
    have hb2 : NoAlt4 (passFn cmpBool true (2 ^ (p + 1))
        (execPasses cmpBool (bitonicSchedule p) g)) (off + 2 ^ p) (2 ^ p) := by
      rw [hpass]; exact revpass_noalt_hi hw hoffmod _ hlo hhi
    have hcr : CrossB (passFn cmpBool true (2 ^ (p + 1))
        (execPasses cmpBool (bitonicSchedule p) g)) off (2 ^ p) := by
      rw [hpass]; exact revpass_cross hw hoffmod _ hlo hhi
    have hS1 := mergeNet_sorts p _ off hdvd_p hb1
    have hS2 := mergeNet_sorts p _ (off + 2 ^ p) hdvd_p2 hb2
    have hCp := crossB_exec_preserved (mergeNet p) (mergeNet_cond rfl hdvd_p)
      _ hcr
    have hglue := sortedB_glue hS1 hS2 hCp
    rw [← h2p] at hglue
    exact hglue

/-! ## From Bool sorting to sorting under any comparator -/

theorem exec_sorted {α : Type} (cmp : α → α → ℤ) (hc : IsComparator cmp)
    (p : ℕ) (g : ℕ → α) :
    SortedOn cmp (execPasses cmp (bitonicSchedule p) g) 0 (2 ^ p) := by
  intro i j h0 hij hj
  by_contra hlt
  push_neg at hlt
  set out := execPasses cmp (bitonicSchedule p) g with hout
  set gmap : α → Bool := fun x => decide (0 < cmp x (out j)) with hgmap
  have hmono : ∀ x y, cmp x y ≤ 0 → gmap x = true → gmap y = true := by
    intro x y hxy hx
    have hx' : 0 < cmp x (out j) := of_decide_eq_true hx
    apply decide_eq_true
    by_contra hy
    push_neg at hy
    have := hc.2 x y (out j) hxy hy
    omega
  have hcomm := gmap_execPasses hc gmap hmono (bitonicSchedule p) g
  have hsorted := schedule_sorts_bool p (fun i => gmap (g i)) 0 (dvd_zero _)
  have hci : gmap (execPasses cmp (bitonicSchedule p) g i) =
      execPasses cmpBool (bitonicSchedule p) (fun i => gmap (g i)) i :=
    congrFun hcomm i
  have hcj : gmap (execPasses cmp (bitonicSchedule p) g j) =
      execPasses cmpBool (bitonicSchedule p) (fun i => gmap (g i)) j :=
    congrFun hcomm j
  have h1 : execPasses cmpBool (bitonicSchedule p) (fun i => gmap (g i)) i
      = true := by
    rw [← hci]
    exact decide_eq_true hlt
  have h2 := hsorted i j (by omega) hij (by omega) h1
  rw [← hcj] at h2
  have h3 : 0 < cmp (out j) (out j) := of_decide_eq_true h2
  have h4 := hc.1 (out j) (out j)
  omega

/-! ## Final assembly for the in-chunk sort -/

theorem keyCmp_comparator (key : ℕ → ℤ) : IsComparator (keyCmp key) := by
  constructor
  · intro x y
    unfold keyCmp
    split_ifs <;> omega
  · intro x y z h1 h2
    unfold keyCmp at h1 h2 ⊢
    split_ifs at h1 h2 ⊢ <;> omega

theorem foldl_sched_window_perm (cmp : ℕ → ℕ → ℤ) {p : ℕ} (n : ℕ)
    (hp : p ≤ 31) :
    ∀ (ps : List (Bool × ℕ)),
      (∀ pr ∈ ps, ∃ k, 1 ≤ k ∧ k ≤ p ∧ pr.2 = 2 ^ k) → ∀ f : ℕ → ℕ,
      (window n (ps.foldl
        (fun g pr => run_gpusort_single cmp pr.1 pr.2 n (2 ^ p) g) f)).Perm
        (window n f)
  | [], _, f => List.Perm.refl _
  | pr :: ps, hps, f => by
    obtain ⟨k, hk1, hkp, hpr⟩ := hps pr (List.mem_cons_self pr ps)
    simp only [List.foldl_cons]
    refine (foldl_sched_window_perm cmp n hp ps
      (fun q hq => hps q (List.mem_cons_of_mem pr hq)) _).trans ?_
    rw [hpr]
    exact run_gpusort_single_window_perm cmp pr.1 n (2 ^ p) n f hk1
      (by omega) (Nat.pow_le_pow_right (by norm_num) hp) le_rfl

/-- C1: for a chunk with n live rows padded to 2^p index slots and any
total-order comparator, after the in-chunk bitonic sort has run all the
passes of the canonical schedule (each pass being the embedded
run_gpusort_single over one work item per slot), the prefix 0..n-1 of the
index array is a permutation of 0..n-1 and the rows it references are in
nondecreasing comparator order. -/
theorem C1_inchunk_sort_sorted_permutation (cmp : ℕ → ℕ → ℤ) (n p : ℕ)
    (res : ℕ → ℕ) (hc : IsComparator cmp) (hp : p ≤ 31) (hn : n ≤ 2 ^ p)
    (hperm : (window n res).Perm (List.range n)) :
    (window n (gpusort_single_all cmp n p res)).Perm (List.range n) ∧
    (∀ i j, i ≤ j → j < n →
      cmp (gpusort_single_all cmp n p res i)
        (gpusort_single_all cmp n p res j) ≤ 0) := by
  constructor
  · exact (foldl_sched_window_perm cmp n hp (bitonicSchedule p)
      bitonicSchedule_units res).trans hperm
  · intro i j hij hj
    have hlift := execPasses_liftN cmp n hp hn (bitonicSchedule p)
      bitonicSchedule_units res
    have hfold : (bitonicSchedule p).foldl
        (fun g pr => run_gpusort_single cmp pr.1 pr.2 n (2 ^ p) g) res =
        gpusort_single_all cmp n p res := rfl
    rw [hfold] at hlift
    have hsort := exec_sorted (cmpOpt cmp) (cmpOpt_comparator hc) p
      (liftN n res)
    have h1 := hsort i j (Nat.zero_le i) hij (by omega)
    rw [hlift] at h1
    have hi : i < n := by omega
    have e1 : liftN n (gpusort_single_all cmp n p res) i =
        some (gpusort_single_all cmp n p res i) := if_pos hi
    have e2 : liftN n (gpusort_single_all cmp n p res) j =
        some (gpusort_single_all cmp n p res j) := if_pos hj
    rw [e1, e2] at h1
    exact h1

/-- Witness for C1: three rows with keys 2, 0, 1 in a chunk padded to four
slots, starting from the identity index; the hypotheses hold and the sort
theorem applies. -/
theorem C1_witness :
    IsComparator (keyCmp (fun i => [(2 : ℤ), 0, 1].getD i 0)) ∧
    (2 : ℕ) ≤ 31 ∧ (3 : ℕ) ≤ 2 ^ 2 ∧
    (window 3 (fun i => i)).Perm (List.range 3) ∧
    ((window 3 (gpusort_single_all
        (keyCmp (fun i => [(2 : ℤ), 0, 1].getD i 0)) 3 2
        (fun i => i))).Perm (List.range 3) ∧
      (∀ i j, i ≤ j → j < 3 →
        keyCmp (fun i => [(2 : ℤ), 0, 1].getD i 0)
          (gpusort_single_all
            (keyCmp (fun i => [(2 : ℤ), 0, 1].getD i 0)) 3 2
            (fun i => i) i)
          (gpusort_single_all
            (keyCmp (fun i => [(2 : ℤ), 0, 1].getD i 0)) 3 2
            (fun i => i) j) ≤ 0)) :=
  ⟨keyCmp_comparator _, by norm_num, by norm_num, by decide,
    C1_inchunk_sort_sorted_permutation
      (keyCmp (fun i => [(2 : ℤ), 0, 1].getD i 0)) 3 2 (fun i => i)
      (keyCmp_comparator _) (by norm_num) (by norm_num) (by decide)⟩

end GpuSort
